import Mathlib

/-!
Shallow embedding of the `conquer-queue` repository: two lock-free FIFO
queues, a segmented fetch-and-add (FAA) array queue (`src/faa.rs`) and a
Michael-Scott linked queue (`src/lib.rs`).  The embedding models the
single-threaded semantics of the code: every atomic load returns the
current value of the shared state, every CAS compares against the current
value, and the retry loops are given explicit fuel (each loop iteration is
an atomic batch, so a fuel-exhausted run still ends in a genuine
intermediate state).  Pointers are addresses (`Nat`) into an append-only
arena (`List` of nodes); a nullable atomic pointer is an `Option Nat`.
`MaybeUninit<T>` storage is `Option T` (`none` = uninitialized bytes), and
a destructor invocation (`ptr::drop_in_place`) is recorded as an event
carrying the storage contents it destructs.
-/

namespace Faa

/-- `const NODE_SIZE: usize = 1024` in `src/faa.rs`. -/
def NODE_SIZE : Nat := 1024

/-- `const UNINIT: usize = 0`. -/
def UNINIT : Nat := 0

/-- `const WRITER: usize = 0b01`. -/
def WRITER : Nat := 1

/-- `const READER: usize = 0b10`. -/
def READER : Nat := 2

/-- `Queue::READ_RETRIES`: the bounded spin count in `pop`.  The spin loop
only performs loads, so it has no effect on the modelled state. -/
def READ_RETRIES : Nat := 128

/-- `Slot<T>`: one storage cell (`UnsafeCell<MaybeUninit<T>>`) plus an
atomic claim state. -/
structure Slot (T : Type) where
  inner : Option T
  state : Nat
deriving Repr

/-- `Slot::new`: uninitialized storage, state `UNINIT`. -/
def Slot.new {T : Type} : Slot T := { inner := none, state := UNINIT }

/-- `Node<T, R>` of the FAA queue: a segment of `NODE_SIZE` slots with
push/pop cursors and a next pointer.  The slot array is modelled as a
total function from indices; only indices `< NODE_SIZE` are ever used. -/
structure Node (T : Type) where
  push_idx : Nat
  pop_idx : Nat
  next : Option Nat
  elements : Nat → Slot T

/-- `Node::new`: zeroed cursors, null next, all slots fresh. -/
def Node.new {T : Type} : Node T :=
  { push_idx := 0, pop_idx := 0, next := none, elements := fun _ => Slot.new }

/-- `Node::with_tentative(elem)`: slot 0 pre-filled with `elem` and marked
`WRITER`, push cursor already at 1. -/
def Node.with_tentative {T : Type} (elem : T) : Node T :=
  { push_idx := 1
    pop_idx := 0
    next := none
    elements := fun j => if j = 0 then { inner := some elem, state := WRITER } else Slot.new }

/-- `Node::reset_tentative_and_drop` (the state change part): the push
cursor is reset to 0 before the node is dropped. -/
def Node.reset_tentative {T : Type} (n : Node T) : Node T :=
  { n with push_idx := 0 }

/-- `impl Drop for Node` (`src/faa.rs` lines 232-246) slices
`self.elements[pop_idx .. min(push_idx, NODE_SIZE)]` before iterating.
When `pop_idx > min(push_idx, NODE_SIZE)` — which holds for every fully
drained-and-unlinked segment, whose pop cursor is `NODE_SIZE + 1` — the
slice bounds are inverted and the indexing operation panics; this
predicate is that panic condition. -/
def Node.dropPanics {T : Type} (n : Node T) : Prop :=
  min n.push_idx NODE_SIZE < n.pop_idx

/-- The storage cells destructed by `impl Drop for Node` (`src/faa.rs`
lines 232-246) in the non-panicking case `¬ n.dropPanics` (pop cursor at
or below the capped push cursor): every slot with index in
`[pop_idx, min(push_idx, NODE_SIZE))` has `drop_in_place` run on its
storage, regardless of its claim state.  When `n.dropPanics` holds the
real drop panics before destructing anything, so this list (empty at such
cursors) is only the destructor record of a drop that completes. -/
def nodeDropDestructs {T : Type} (n : Node T) : List (Option T) :=
  (List.range' n.pop_idx (min n.push_idx NODE_SIZE - n.pop_idx)).map
    (fun j => (n.elements j).inner)

/-- The FAA `Queue<T, R>`: atomic head and tail segment pointers.  The
arena `heap` holds every segment ever published; `retired` records the
addresses handed to the reclamation facility by `retire_unchecked`, in
retirement order. -/
structure Queue (T : Type) where
  heap : List (Node T)
  head : Option Nat
  tail : Option Nat
  retired : List Nat

/-- `Queue::new` (via `Default`): a single empty segment, head and tail
both pointing at it. -/
def Queue.new {T : Type} : Queue T :=
  { heap := [Node.new], head := some 0, tail := some 0, retired := [] }

/-- Arena lookup with a default (addresses produced by the code are always
in bounds; the default is irrelevant for reachable states). -/
def geth {T : Type} (heap : List (Node T)) (i : Nat) : Node T :=
  heap.getD i Node.new

/-- Slot-index reservation events: which `fetch_add` on which segment's
cursor handed out which index. -/
inductive Ev where
  | pushRes (seg idx : Nat)
  | popRes (seg idx : Nat)
deriving DecidableEq, Repr

/-- The outcome of running the CAS portion of `Queue::push_new_node`
(`src/faa.rs` lines 135-151): the candidate node is constructed off to the
side, then `compare_exchange(Shared::none(), node)` is attempted on
`tail.next`.  `nextAtCas` is the value of `tail.next` at the moment of the
CAS (equal to the loaded value in a single-threaded run, possibly non-null
under interference).  On failure the candidate is reset and dropped
without ever being published; the destruct events of that drop are
returned. -/
inductive NewNodeOut (T : Type) where
  | ok (queue : Queue T)
  | err (elem : T) (queue : Queue T) (destructs : List (Option T))

def pushNewNodeCas {T : Type} (q : Queue T) (t : Nat) (v : T) (nextAtCas : Option Nat) :
    NewNodeOut T :=
  match nextAtCas with
  | none =>
    let addr := q.heap.length
    let tn := geth q.heap t
    NewNodeOut.ok
      { q with heap := (q.heap.set t { tn with next := some addr }) ++ [Node.with_tentative v] }
  | some _ =>
    NewNodeOut.err v q (nodeDropDestructs (Node.reset_tentative (Node.with_tentative v)))

/-- `Queue::push_new_node` (`src/faa.rs` lines 133-158), single-threaded:
the CAS sees the same `tail.next` value as the preceding load.  When the
load already sees a non-null next, the global tail is CASed forward and
the element is returned for retry. -/
def push_new_node {T : Type} (q : Queue T) (t : Nat) (v : T) : NewNodeOut T :=
  match (geth q.heap t).next with
  | none => pushNewNodeCas q t v none
  | some nx =>
    NewNodeOut.err v (if q.tail = some t then { q with tail := some nx } else q) []

/-- Result of the `push` retry loop: `done = false` means the fuel ran out
(or a null unwrap got stuck) with the state as reached so far. -/
structure PushOut (T : Type) where
  done : Bool
  queue : Queue T
  evs : List Ev
  destructs : List (Option T)

/-- `Queue::push` (`src/faa.rs` lines 56-84), one loop iteration per unit
of fuel.  `fetch_add` on the push cursor both returns the reserved index
and increments the cursor; an in-range reservation writes the element
tentatively and then `fetch_or`s `WRITER` into the slot state, retrying if
the previous state was `READER` (slot abandoned by a consumer).
`destructs` records the destructor invocations performed by the call
itself: `write_tentative` only bitwise-copies the element into the slot
and the in-range success path has no `mem::forget` (the only
`mem::forget` in `src/faa.rs` is on the `push_new_node` Ok path, line
142), so on the in-range `return` the caller's local `elem` is dropped
while the slot keeps a live copy. -/
def pushLoop {T : Type} : Nat → Queue T → T → PushOut T
  | 0, q, _ => { done := false, queue := q, evs := [], destructs := [] }
  | fuel + 1, q, v =>
    match q.tail with
    | none => { done := false, queue := q, evs := [], destructs := [] }
    | some t =>
      let tn := geth q.heap t
      let idx := tn.push_idx
      let q1 : Queue T := { q with heap := q.heap.set t { tn with push_idx := idx + 1 } }
      let ev := Ev.pushRes t idx
      if NODE_SIZE ≤ idx then
        if q1.tail ≠ some t then
          let r := pushLoop fuel q1 v
          { r with evs := ev :: r.evs }
        else
          match push_new_node q1 t v with
          | NewNodeOut.ok q2 => { done := true, queue := q2, evs := [ev], destructs := [] }
          | NewNodeOut.err v' q2 ds =>
            let r := pushLoop fuel q2 v'
            { r with evs := ev :: r.evs, destructs := ds ++ r.destructs }
      else
        let tn1 := geth q1.heap t
        let s := tn1.elements idx
        let prev := s.state
        let s1 : Slot T := { inner := some v, state := prev ||| WRITER }
        let q2 : Queue T :=
          { q1 with
            heap := q1.heap.set t
              { tn1 with elements := fun j => if j = idx then s1 else tn1.elements j } }
        if prev = READER then
          let r := pushLoop fuel q2 v
          { r with evs := ev :: r.evs }
        else
          { done := true, queue := q2, evs := [ev], destructs := [some v] }

/-- `Queue::push` with enough fuel for any single-threaded state. -/
def push {T : Type} (q : Queue T) (v : T) : PushOut T :=
  pushLoop (q.heap.length + 3) q v

/-- Result of the `pop` retry loop.  `res = none` means the fuel ran out or
a null unwrap got stuck; `res = some none` is the code's `None` (empty);
`res = some (some s)` is `Some(slot.read())` where `s` is the storage
contents read (an uninitialized read would yield `some none`). -/
structure PopOut (T : Type) where
  res : Option (Option (Option T))
  queue : Queue T
  evs : List Ev

/-- `Queue::pop` (`src/faa.rs` lines 87-130), one loop iteration per unit
of fuel.  Note the emptiness check is the code's
`push_idx >= pop_idx && head.next.is_none()`.  The bounded spin loop only
performs loads and is elided.  A successful head CAS retires the unlinked
segment. -/
def popLoop {T : Type} : Nat → Queue T → PopOut T
  | 0, q => { res := none, queue := q, evs := [] }
  | fuel + 1, q =>
    match q.head with
    | none => { res := none, queue := q, evs := [] }
    | some h =>
      let hn := geth q.heap h
      let pop_idx := hn.pop_idx
      let push_idx := hn.push_idx
      if pop_idx ≤ push_idx ∧ hn.next = none then
        { res := some none, queue := q, evs := [] }
      else
        let idx := hn.pop_idx
        let q1 : Queue T := { q with heap := q.heap.set h { hn with pop_idx := idx + 1 } }
        let ev := Ev.popRes h idx
        if idx < NODE_SIZE then
          let hn1 := geth q1.heap h
          let s := hn1.elements idx
          let prev := s.state
          let s1 : Slot T := { s with state := prev ||| READER }
          let q2 : Queue T :=
            { q1 with
              heap := q1.heap.set h
                { hn1 with elements := fun j => if j = idx then s1 else hn1.elements j } }
          if prev = UNINIT then
            let r := popLoop fuel q2
            { r with evs := ev :: r.evs }
          else
            { res := some (some s.inner), queue := q2, evs := [ev] }
        else
          match hn.next with
          | some next =>
            if q1.head = some h then
              let q2 : Queue T :=
                { q1 with head := some next, retired := q1.retired ++ [h] }
              let r := popLoop fuel q2
              { r with evs := ev :: r.evs }
            else
              let r := popLoop fuel q1
              { r with evs := ev :: r.evs }
          | none => { res := some none, queue := q1, evs := [ev] }

/-- `Queue::pop` with enough fuel for any single-threaded state. -/
def pop {T : Type} (q : Queue T) : PopOut T :=
  popLoop (q.heap.length + 3) q

/-- The chain walk of `impl Drop for Queue` (`src/faa.rs` lines 161-170):
starting from `head`, every node in the `next` chain is dropped, each
contributing its `nodeDropDestructs`. -/
def dropChain {T : Type} : Nat → List (Node T) → Option Nat → List (Option T)
  | 0, _, _ => []
  | _ + 1, _, none => []
  | fuel + 1, heap, some i =>
    nodeDropDestructs (geth heap i) ++ dropChain fuel heap (geth heap i).next

/-- Destructors run when the queue itself is dropped. -/
def queueDropDestructs {T : Type} (q : Queue T) : List (Option T) :=
  dropChain (q.heap.length + 1) q.heap q.head

/-- Modelled from the spec: `src/faa.rs` has no `is_empty` method, but §6
of the spec lists `is_empty() -> bool` in the public API of both queue
variants.  Per §4.5 the FAA queue is empty when `push_cursor ≤ pop_cursor`
and the head segment's `next` is null; `none` models a null head. -/
def is_empty {T : Type} (q : Queue T) : Option Bool :=
  match q.head with
  | none => none
  | some h =>
    some (decide ((geth q.heap h).push_idx ≤ (geth q.heap h).pop_idx) &&
      decide ((geth q.heap h).next = none))

end Faa

namespace Ms

/-- `Node<T, R>` of the Michael-Scott queue (`src/lib.rs`): a
`MaybeUninit` element (uninitialized exactly for the sentinel) and an
atomic next pointer. -/
structure Node (T : Type) where
  elem : Option T
  next : Option Nat
deriving Repr, DecidableEq

/-- `Node::sentinel`: uninitialized element, null next. -/
def Node.sentinel {T : Type} : Node T := { elem := none, next := none }

/-- `Node::new(elem)`. -/
def Node.new {T : Type} (v : T) : Node T := { elem := some v, next := none }

/-- The Michael-Scott `Queue<T, R>`: atomic head and tail node pointers
over the arena, plus the list of retired (unlinked) node addresses. -/
structure Queue (T : Type) where
  heap : List (Node T)
  head : Option Nat
  tail : Option Nat
  retired : List Nat
deriving Repr, DecidableEq

/-- `Queue::new`: a single sentinel node, head and tail both pointing at
it. -/
def Queue.new {T : Type} : Queue T :=
  { heap := [Node.sentinel], head := some 0, tail := some 0, retired := [] }

/-- Arena lookup with a default. -/
def geth {T : Type} (heap : List (Node T)) (i : Nat) : Node T :=
  heap.getD i Node.sentinel

/-- `Queue::is_empty` (`src/lib.rs` lines 59-66): the head pointer equals
the raw tail pointer and `head.next` is null.  `none` models the
`unwrap_unchecked` of `load_head` hitting a null head. -/
def is_empty {T : Type} (q : Queue T) : Option Bool :=
  match q.head with
  | none => none
  | some h =>
    some (decide (q.tail = some h) && decide ((geth q.heap h).next = none))

/-- The retry loop of `Queue::push` (`src/lib.rs` lines 75-97),
single-threaded: the `load_raw` staleness re-check and the `tail.next` CAS
both see the values just loaded, so the re-check passes and the CAS
succeeds whenever `tail.next` was null.  Returns the tail node observed at
the break (used by the final tail swing). -/
def pushLoop {T : Type} : Nat → Queue T → Nat → Bool × Queue T × Nat
  | 0, q, _ => (false, q, 0)
  | fuel + 1, q, node =>
    match q.tail with
    | none => (false, q, 0)
    | some t =>
      let tn := geth q.heap t
      match tn.next with
      | none =>
        (true, { q with heap := q.heap.set t { tn with next := some node } }, t)
      | some nx =>
        pushLoop fuel (if q.tail = some t then { q with tail := some nx } else q) node

/-- `Queue::push` (`src/lib.rs` lines 70-101): allocate the node, run the
link loop, then opportunistically CAS the global tail to the new node. -/
def push {T : Type} (q : Queue T) (v : T) : Bool × Queue T :=
  let node := q.heap.length
  let q1 : Queue T := { q with heap := q.heap ++ [Node.new v] }
  match pushLoop (q1.heap.length + 1) q1 node with
  | (true, q2, t) =>
    (true, if q2.tail = some t then { q2 with tail := some node } else q2)
  | (false, q2, _) => (false, q2)

/-- The possible outcomes of one iteration of the `Queue::pop` loop
(`src/lib.rs` lines 110-139). -/
inductive PopStep (T : Type) where
  | retryPlain
  | retrySwing (tailSeen next : Nat)
  | empty
  | popped (res : Option T) (newHead retiredAddr : Nat)
  | stuck
deriving DecidableEq

/-- One iteration of the `Queue::pop` loop.  `hObs` and `tObs` are the
protected head load and the unprotected tail load; `headRecheck` is the
value of `head` at the `load_raw` staleness re-check; `headCas` its value
at the CAS (under interference these may differ from `hObs`).  `next` is
read from the heap.  The second component lists the destructor invocations
the iteration performs: the tentative `ptr::read` of the next node's
`MaybeUninit` element never runs a destructor, and on CAS failure the
tentatively read value is discarded without being dropped, so the list is
always empty — mirroring that `pop` contains no `drop_in_place`. -/
def popIter {T : Type} (heap : List (Node T)) (hObs tObs headRecheck headCas : Nat) :
    PopStep T × List T :=
  let next := (geth heap hObs).next
  if headRecheck ≠ hObs then (PopStep.retryPlain, [])
  else if hObs = tObs then
    match next with
    | none => (PopStep.empty, [])
    | some nx => (PopStep.retrySwing tObs nx, [])
  else
    match next with
    | none => (PopStep.stuck, [])
    | some nx =>
      let res := (geth heap nx).elem
      if headCas = hObs then (PopStep.popped res nx hObs, [])
      else (PopStep.retryPlain, [])

/-- The state updates an iteration outcome performs: a failed CAS writes
nothing; a tail swing CASes the tail; a successful head CAS moves the head
and retires the unlinked old head. -/
def applyStep {T : Type} (q : Queue T) : PopStep T → Queue T
  | PopStep.retrySwing tailSeen nx =>
    if q.tail = some tailSeen then { q with tail := some nx } else q
  | PopStep.popped _ nh ra => { q with head := some nh, retired := q.retired ++ [ra] }
  | _ => q

/-- `Queue::pop` (`src/lib.rs` lines 106-147), single-threaded: every
observed value is the current one.  Result `none` is a stuck run (fuel
exhausted, a null unwrap, or an uninitialized `assume_init`);
`some none` is the code's `None` (empty); `some (some v)` is `Some(v)`. -/
def popLoop {T : Type} : Nat → Queue T → Option (Option T) × Queue T
  | 0, q => (none, q)
  | fuel + 1, q =>
    match q.head, q.tail with
    | some h, some t =>
      match popIter q.heap h t h h with
      | (PopStep.retryPlain, _) => popLoop fuel q
      | (PopStep.retrySwing ts nx, _) => popLoop fuel (applyStep q (PopStep.retrySwing ts nx))
      | (PopStep.empty, _) => (some none, q)
      | (PopStep.stuck, _) => (none, q)
      | (PopStep.popped res nh ra, _) =>
        match res with
        | some v => (some (some v), applyStep q (PopStep.popped res nh ra))
        | none => (none, q)
    | _, _ => (none, q)

/-- `Queue::pop` with enough fuel for any single-threaded state. -/
def pop {T : Type} (q : Queue T) : Option (Option T) × Queue T :=
  popLoop (q.heap.length + 1) q

/-- The chain walk of `impl Drop for Queue` (`src/lib.rs` lines 164-177):
the sentinel's element is never dropped; every node after it has its
element dropped in place. -/
def dropChain {T : Type} : Nat → List (Node T) → Option Nat → List (Option T)
  | 0, _, _ => []
  | _ + 1, _, none => []
  | fuel + 1, heap, some i => (geth heap i).elem :: dropChain fuel heap (geth heap i).next

/-- Destructors run when the queue is dropped.  Retired nodes contribute
nothing: `Node` in `src/lib.rs` has no `Drop` impl, so reclamation frees
them without running the element's destructor. -/
def queueDropDestructs {T : Type} (q : Queue T) : List (Option T) :=
  match q.head with
  | none => []
  | some h => dropChain (q.heap.length + 1) q.heap (geth q.heap h).next

end Ms

/-- A single-threaded queue operation. -/
inductive QOp (T : Type) where
  | push (v : T)
  | pop

/-- The values pushed by a sequence of operations, in order. -/
def pushedVals {T : Type} (ops : List (QOp T)) : List T :=
  ops.filterMap (fun op => match op with | QOp.push v => some v | QOp.pop => none)

/-- The abstract FIFO queue: the spec-level fold of a sequence of
operations, returning the final contents and the per-pop outputs. -/
def specStep {T : Type} (s : List T × List (Option T)) : QOp T → List T × List (Option T)
  | QOp.push v => (s.1 ++ [v], s.2)
  | QOp.pop =>
    match s.1 with
    | [] => ([], s.2 ++ [none])
    | v :: r => (r, s.2 ++ [some v])

def specRun {T : Type} (ops : List (QOp T)) : List T × List (Option T) :=
  ops.foldl specStep ([], [])

namespace Ms

/-- Run a sequence of operations on the Michael-Scott queue, collecting
the pop results and whether every operation completed (no fuel exhaustion,
no stuck null-unwrap). -/
def runOps {T : Type} : List (QOp T) → Queue T → Queue T × List (Option (Option T)) × Bool
  | [], q => (q, [], true)
  | QOp.push v :: ops, q =>
    let r := push q v
    let rest := runOps ops r.2
    (rest.1, rest.2.1, r.1 && rest.2.2)
  | QOp.pop :: ops, q =>
    let r := pop q
    let rest := runOps ops r.2
    (rest.1, r.1 :: rest.2.1, r.1.isSome && rest.2.2)

/-- Apply `push` to a queue, discarding the completion flag. -/
def pushQ {T : Type} (q : Queue T) (v : T) : Queue T := (push q v).2

/-- Push a list of values in order. -/
def pushAll {T : Type} (q : Queue T) (vs : List T) : Queue T :=
  vs.foldl pushQ q

/-- Pop `n` times, collecting results (`none` entries mark stuck pops). -/
def popN {T : Type} : Nat → Queue T → List (Option (Option T)) × Queue T
  | 0, q => ([], q)
  | n + 1, q =>
    let r := pop q
    let rest := popN n r.2
    (r.1 :: rest.1, rest.2)

end Ms

namespace Faa

/-- Run a sequence of operations on the FAA queue, collecting the pop
results and whether every operation completed. -/
def runOps {T : Type} : List (QOp T) → Queue T → Queue T × List (Option (Option (Option T))) × Bool
  | [], q => (q, [], true)
  | QOp.push v :: ops, q =>
    let r := push q v
    let rest := runOps ops r.queue
    (rest.1, rest.2.1, r.done && rest.2.2)
  | QOp.pop :: ops, q =>
    let r := pop q
    let rest := runOps ops r.queue
    (rest.1, r.res :: rest.2.1, r.res.isSome && rest.2.2)

/-- The values successfully returned by pops in a list of pop results. -/
def returnedVals {T : Type} (outs : List (Option (Option (Option T)))) : List (Option T) :=
  outs.filterMap (fun r => match r with | some (some s) => some s | _ => none)

/-- The reservation events of a run of operations. -/
def runEvs {T : Type} : List (QOp T) → Queue T → List Ev
  | [], _ => []
  | QOp.push v :: ops, q => (push q v).evs ++ runEvs ops (push q v).queue
  | QOp.pop :: ops, q => (pop q).evs ++ runEvs ops (pop q).queue

/-- An in-range push-cursor reservation: the `fetch_add` handed out an
actual slot index of the segment. -/
def inRangePush : Ev → Bool
  | Ev.pushRes _ idx => decide (idx < NODE_SIZE)
  | Ev.popRes _ _ => false

/-- An in-range pop-cursor reservation. -/
def inRangePop : Ev → Bool
  | Ev.popRes _ idx => decide (idx < NODE_SIZE)
  | Ev.pushRes _ _ => false

/-- The claim state of slot `i` of segment `s`. -/
def slotStateAt {T : Type} (q : Queue T) (s i : Nat) : Nat :=
  ((geth q.heap s).elements i).state

/-- Position of a claim state along the monotonic
`Empty → Filled → Taken` order: `Taken` is any state with the `READER`
bit set (a consumer claimed or abandoned the slot), `Filled` has only the
`WRITER` bit. -/
def rank (s : Nat) : Nat :=
  if s.testBit 1 then 2 else if s.testBit 0 then 1 else 0

/-- Push a list of values in order. -/
def pushAll {T : Type} (q : Queue T) (vs : List T) : Queue T :=
  vs.foldl (fun q v => (push q v).queue) q

/-- Pop `n` times, collecting results. -/
def popN {T : Type} : Nat → Queue T → List (Option (Option (Option T))) × Queue T
  | 0, q => ([], q)
  | n + 1, q =>
    let r := pop q
    let rest := popN n r.queue
    (r.res :: rest.1, rest.2)

end Faa

namespace Ms

/-- The linked chain of nodes after address `h`: `as` pairs each node's
address with the element it stores.  Addresses strictly increase along
the chain (the model allocates monotonically), so chain nodes are
pairwise distinct. -/
def chainOk {T : Type} (heap : List (Node T)) : Nat → List (Nat × T) → Prop
  | h, [] => (geth heap h).next = none
  | h, (a, v) :: rest =>
    (geth heap h).next = some a ∧ (geth heap a).elem = some v ∧ h < a ∧
      a < heap.length ∧ chainOk heap a rest

/-- The address of the last node of the chain starting at `h`. -/
def lastAddr {T : Type} (h : Nat) (as : List (Nat × T)) : Nat :=
  as.foldl (fun _ p => p.1) h

/-- The single-threaded state invariant of the Michael-Scott queue: head
points at the sentinel of a well-formed chain holding exactly the pending
values `vs`, and tail points at the chain's last node. -/
def Inv {T : Type} (q : Queue T) (vs : List T) : Prop :=
  ∃ h as, q.head = some h ∧ h < q.heap.length ∧ chainOk q.heap h as ∧
    q.tail = some (lastAddr h as) ∧ as.map Prod.snd = vs

end Ms

namespace Faa

/-- Exact characterization of a segment's slots, as produced by the
write/claim protocol: the `WRITER` bit is set exactly below the capped
push cursor (where the storage is initialized), the `READER` bit exactly
below the pop cursor. -/
def slotsOk {T : Type} (n : Node T) : Prop :=
  ∀ j, j < NODE_SIZE →
    ((n.elements j).state =
      ((if j < min n.push_idx NODE_SIZE then WRITER else 0) |||
        (if j < n.pop_idx then READER else 0))) ∧
    (j < min n.push_idx NODE_SIZE → ∃ v, (n.elements j).inner = some v) ∧
    (min n.push_idx NODE_SIZE ≤ j → (n.elements j).inner = none)

/-- The single-threaded state invariant of the FAA queue with head segment
`h` and tail segment `t`.  Segments occupy consecutive arena addresses in
chain order; every non-last segment has overflowed its push cursor; the
tail may lag one segment behind the last (a freshly linked segment whose
only content is its pre-filled slot 0); the retired list is exactly the
unlinked prefix, each retired segment fully drained. -/
structure InvAt {T : Type} (q : Queue T) (h t : Nat) : Prop where
  head_eq : q.head = some h
  tail_eq : q.tail = some t
  h_lt : h < q.heap.length
  t_lt : t < q.heap.length
  chain : ∀ i, i + 1 < q.heap.length → (geth q.heap i).next = some (i + 1)
  last_next : (geth q.heap (q.heap.length - 1)).next = none
  tail_pos : t + 1 = q.heap.length ∨
    (t + 2 = q.heap.length ∧ (geth q.heap (t + 1)).push_idx = 1)
  retired_eq : q.retired = List.range h
  full_mid : ∀ i, i + 1 < q.heap.length → NODE_SIZE + 1 ≤ (geth q.heap i).push_idx
  last_k : (geth q.heap (q.heap.length - 1)).push_idx ≤ NODE_SIZE
  pop_zero : ∀ i, h < i → i < q.heap.length → (geth q.heap i).pop_idx = 0
  retired_p : ∀ i, i < h → (geth q.heap i).pop_idx = NODE_SIZE + 1
  head_p : (geth q.heap h).pop_idx ≤ min (geth q.heap h).push_idx NODE_SIZE
  slots_ok : ∀ i, i < q.heap.length → slotsOk (geth q.heap i)

/-- The single-threaded state invariant of the FAA queue. -/
def Inv {T : Type} (q : Queue T) : Prop := ∃ h t, InvAt q h t

/-- The pending storage cells of the live segments from address `h` on:
each segment contributes its `[pop_idx, min(push_idx, NODE_SIZE))` range
(which is also exactly what its `Drop` impl would destruct). -/
def liveChunks {T : Type} (q : Queue T) (h : Nat) : List (Option T) :=
  ((List.range' h (q.heap.length - h)).map
    (fun i => nodeDropDestructs (geth q.heap i))).flatten

/-- The push cursor of segment `s`. -/
def pushIdxAt {T : Type} (q : Queue T) (s : Nat) : Nat := (geth q.heap s).push_idx

/-- The pop cursor of segment `s`. -/
def popIdxAt {T : Type} (q : Queue T) (s : Nat) : Nat := (geth q.heap s).pop_idx

end Faa

/-- A concrete two-node heap (sentinel at 0 holding nothing, one value
node at 1) used to witness the pop-iteration claim. -/
def c5WitnessHeap : List (Ms.Node Nat) :=
  [{ elem := none, next := some 1 }, { elem := some 7, next := none }]

/-- The first segment of the FAA queue along the boundary scenario: push
cursor `m`, pop cursor `r`, next pointer `nx`; slot `j` holds the `j`-th
pushed value and is `Filled` (plus `Taken` once below the pop cursor) for
`j < min m NODE_SIZE`, fresh above. -/
def c3Seg0 {T : Type} (vs : List T) (m r : Nat) (nx : Option Nat) : Faa.Node T :=
  { push_idx := m
    pop_idx := r
    next := nx
    elements := fun j =>
      if j < min m Faa.NODE_SIZE then
        { inner := vs[j]?
          state := if j < r then Faa.WRITER ||| Faa.READER else Faa.WRITER }
      else Faa.Slot.new }

/-- The FAA queue state during the push phase of the boundary scenario:
one segment, `m` values pushed. -/
def c3QueuePush {T : Type} (vs : List T) (m : Nat) : Faa.Queue T :=
  { heap := [c3Seg0 vs m 0 none], head := some 0, tail := some 0, retired := [] }

/-- The FAA queue state after the segment extension of the boundary
scenario: the overflowed first segment linked to a tentative second one
pre-filled with the overflowing value `w`; `r` values popped so far. -/
def c3QueueExt {T : Type} (vs : List T) (w : T) (r : Nat) : Faa.Queue T :=
  { heap := [c3Seg0 vs (Faa.NODE_SIZE + 1) r (some 1), Faa.Node.with_tentative w]
    head := some 0
    tail := some 0
    retired := [] }

theorem Faa.geth_set_self {T : Type} (heap : List (Faa.Node T)) (t : Nat) (n : Faa.Node T)
    (h : t < heap.length) : Faa.geth (heap.set t n) t = n := by
  simp [Faa.geth, List.getD_eq_getElem?_getD, List.getElem?_set_self, h]

theorem Faa.geth_set_ne {T : Type} (heap : List (Faa.Node T)) (t i : Nat) (n : Faa.Node T)
    (h : t ≠ i) : Faa.geth (heap.set t n) i = Faa.geth heap i := by
  simp [Faa.geth, List.getD_eq_getElem?_getD, List.getElem?_set_ne h]

theorem Faa.geth_append_lt {T : Type} (heap rest : List (Faa.Node T)) (i : Nat)
    (h : i < heap.length) : Faa.geth (heap ++ rest) i = Faa.geth heap i := by
  simp [Faa.geth, List.getD_eq_getElem?_getD, List.getElem?_append, h]

theorem Faa.geth_append_len {T : Type} (heap : List (Faa.Node T)) (n : Faa.Node T) :
    Faa.geth (heap ++ [n]) heap.length = n := by
  simp [Faa.geth, List.getD_eq_getElem?_getD]

theorem Faa.geth_append_at {T : Type} (heap : List (Faa.Node T)) (n : Faa.Node T) (i : Nat)
    (hi : i = heap.length) : Faa.geth (heap ++ [n]) i = n := by
  subst hi
  exact Faa.geth_append_len heap n

theorem Ms.geth_set_self_ms {T : Type} (heap : List (Ms.Node T)) (t : Nat) (n : Ms.Node T)
    (h : t < heap.length) : Ms.geth (heap.set t n) t = n := by
  simp [Ms.geth, List.getD_eq_getElem?_getD, List.getElem?_set_self, h]

theorem Ms.geth_set_ne_ms {T : Type} (heap : List (Ms.Node T)) (t i : Nat) (n : Ms.Node T)
    (h : t ≠ i) : Ms.geth (heap.set t n) i = Ms.geth heap i := by
  simp [Ms.geth, List.getD_eq_getElem?_getD, List.getElem?_set_ne h]

theorem Ms.geth_append_lt_ms {T : Type} (heap rest : List (Ms.Node T)) (i : Nat)
    (h : i < heap.length) : Ms.geth (heap ++ rest) i = Ms.geth heap i := by
  simp [Ms.geth, List.getD_eq_getElem?_getD, List.getElem?_append, h]

theorem Ms.geth_append_len_ms {T : Type} (heap : List (Ms.Node T)) (n : Ms.Node T) :
    Ms.geth (heap ++ [n]) heap.length = n := by
  simp [Ms.geth, List.getD_eq_getElem?_getD]

/-- Claim C1: the spec says `pop` returns empty exactly when the head
segment's `push_cursor ≤ pop_cursor` and its `next` is null, and in
particular never returns empty while the head segment holds a
pushed-and-not-yet-popped element.  The code (`src/faa.rs` line 95) tests
`push_idx >= pop_idx` — the comparison is reversed — so popping a fresh
FAA queue into which one element was pushed returns `None` even though
the head segment provably holds that element (push cursor 1, pop cursor
0, slot 0 `Filled` with the value, next null). -/
theorem claim_C1_code_bug_pop_after_push_returns_empty :
    ((Faa.geth (Faa.push (Faa.Queue.new (T := Nat)) 42).queue.heap 0).push_idx = 1 ∧
      (Faa.geth (Faa.push (Faa.Queue.new (T := Nat)) 42).queue.heap 0).pop_idx = 0 ∧
      ((Faa.geth (Faa.push (Faa.Queue.new (T := Nat)) 42).queue.heap 0).elements 0).state =
        Faa.WRITER ∧
      ((Faa.geth (Faa.push (Faa.Queue.new (T := Nat)) 42).queue.heap 0).elements 0).inner =
        some 42 ∧
      (Faa.geth (Faa.push (Faa.Queue.new (T := Nat)) 42).queue.heap 0).next = none) ∧
    (Faa.pop (Faa.push (Faa.Queue.new (T := Nat)) 42).queue).res = some none := by
  decide

/-- Claim C6: when the segment-extension CAS on `tail.next` fails, the
tentative segment is discarded without being published or retired, its
destructor range is emptied by the push-cursor reset (so the pre-filled
element is not dropped), ownership of the element returns to the caller
as `Err(elem)`, and the queue state is unchanged. -/
theorem claim_C6_extension_cas_failure_is_clean {T : Type} (q : Faa.Queue T) (t : Nat) (v : T)
    (nextAtCas : Option Nat) (hfail : nextAtCas ≠ none) :
    Faa.pushNewNodeCas q t v nextAtCas =
      Faa.NewNodeOut.err v q
        (Faa.nodeDropDestructs (Faa.Node.reset_tentative (Faa.Node.with_tentative v))) ∧
    Faa.nodeDropDestructs (Faa.Node.reset_tentative (Faa.Node.with_tentative v)) = [] := by
  match nextAtCas, hfail with
  | some nx, _ => exact ⟨rfl, rfl⟩

/-- Witness for C6 at a concrete input. -/
theorem claim_C6_witness :
    (some 1 : Option Nat) ≠ none ∧
    (Faa.pushNewNodeCas (Faa.Queue.new (T := Nat)) 0 5 (some 1) =
      Faa.NewNodeOut.err 5 Faa.Queue.new
        (Faa.nodeDropDestructs (Faa.Node.reset_tentative (Faa.Node.with_tentative 5))) ∧
      Faa.nodeDropDestructs (Faa.Node.reset_tentative (Faa.Node.with_tentative (5 : Nat))) = []) :=
  ⟨by decide, claim_C6_extension_cas_failure_is_clean _ 0 5 (some 1) (by decide)⟩

theorem Faa.nodeDropDestructs_drained {T : Type} (n : Faa.Node T)
    (hp : n.pop_idx = Faa.NODE_SIZE + 1) : Faa.nodeDropDestructs n = [] := by
  unfold Faa.nodeDropDestructs
  rw [hp]
  have hm : min n.push_idx Faa.NODE_SIZE - (Faa.NODE_SIZE + 1) = 0 := by
    have := Nat.min_le_right n.push_idx Faa.NODE_SIZE
    omega
  rw [hm]
  rfl

theorem Faa.pushLoop_append_eq {T : Type} (fuel : Nat) (q : Faa.Queue T) (v : T) (t : Nat)
    (ht : q.tail = some t) (htl : t < q.heap.length)
    (hk : (Faa.geth q.heap t).push_idx < Faa.NODE_SIZE)
    (hprev : ((Faa.geth q.heap t).elements (Faa.geth q.heap t).push_idx).state ≠ Faa.READER) :
    Faa.pushLoop (fuel + 1) q v =
      { done := true
        queue :=
          { q with
            heap := q.heap.set t
              { push_idx := (Faa.geth q.heap t).push_idx + 1
                pop_idx := (Faa.geth q.heap t).pop_idx
                next := (Faa.geth q.heap t).next
                elements := fun j =>
                  if j = (Faa.geth q.heap t).push_idx then
                    { inner := some v
                      state :=
                        ((Faa.geth q.heap t).elements (Faa.geth q.heap t).push_idx).state |||
                          Faa.WRITER }
                  else (Faa.geth q.heap t).elements j } }
        evs := [Faa.Ev.pushRes t (Faa.geth q.heap t).push_idx]
        destructs := [some v] } := by
  simp only [Faa.pushLoop, ht]
  rw [if_neg (Nat.not_le.mpr hk)]
  rw [Faa.geth_set_self q.heap t _ htl]
  simp only []
  rw [if_neg hprev]
  simp [List.set_set]

theorem Faa.pushLoop_extend_eq {T : Type} (fuel : Nat) (q : Faa.Queue T) (v : T) (t : Nat)
    (ht : q.tail = some t) (htl : t < q.heap.length)
    (hkN : Faa.NODE_SIZE ≤ (Faa.geth q.heap t).push_idx)
    (hnext : (Faa.geth q.heap t).next = none) :
    Faa.pushLoop (fuel + 1) q v =
      { done := true
        queue :=
          { q with
            heap :=
              (q.heap.set t
                { push_idx := (Faa.geth q.heap t).push_idx + 1
                  pop_idx := (Faa.geth q.heap t).pop_idx
                  next := some q.heap.length
                  elements := (Faa.geth q.heap t).elements }) ++
                [Faa.Node.with_tentative v] }
        evs := [Faa.Ev.pushRes t (Faa.geth q.heap t).push_idx]
        destructs := [] } := by
  simp only [Faa.pushLoop, ht]
  rw [if_pos hkN]
  rw [if_neg (by simp [ht])]
  simp only [Faa.push_new_node, Faa.pushNewNodeCas, Faa.geth_set_self q.heap t _ htl, hnext]
  simp [List.set_set]

theorem Faa.pushLoop_lagfix_eq {T : Type} (fuel : Nat) (q : Faa.Queue T) (v : T) (t nx : Nat)
    (ht : q.tail = some t) (htl : t < q.heap.length)
    (hkN : Faa.NODE_SIZE ≤ (Faa.geth q.heap t).push_idx)
    (hnext : (Faa.geth q.heap t).next = some nx) :
    Faa.pushLoop (fuel + 1) q v =
      { done :=
          (Faa.pushLoop fuel
            { q with
              heap := q.heap.set t
                { push_idx := (Faa.geth q.heap t).push_idx + 1
                  pop_idx := (Faa.geth q.heap t).pop_idx
                  next := (Faa.geth q.heap t).next
                  elements := (Faa.geth q.heap t).elements }
              tail := some nx } v).done
        queue :=
          (Faa.pushLoop fuel
            { q with
              heap := q.heap.set t
                { push_idx := (Faa.geth q.heap t).push_idx + 1
                  pop_idx := (Faa.geth q.heap t).pop_idx
                  next := (Faa.geth q.heap t).next
                  elements := (Faa.geth q.heap t).elements }
              tail := some nx } v).queue
        evs := Faa.Ev.pushRes t (Faa.geth q.heap t).push_idx ::
          (Faa.pushLoop fuel
            { q with
              heap := q.heap.set t
                { push_idx := (Faa.geth q.heap t).push_idx + 1
                  pop_idx := (Faa.geth q.heap t).pop_idx
                  next := (Faa.geth q.heap t).next
                  elements := (Faa.geth q.heap t).elements }
              tail := some nx } v).evs
        destructs :=
          (Faa.pushLoop fuel
            { q with
              heap := q.heap.set t
                { push_idx := (Faa.geth q.heap t).push_idx + 1
                  pop_idx := (Faa.geth q.heap t).pop_idx
                  next := (Faa.geth q.heap t).next
                  elements := (Faa.geth q.heap t).elements }
              tail := some nx } v).destructs } := by
  simp only [Faa.pushLoop, ht]
  rw [if_pos hkN]
  rw [if_neg (by simp [ht])]
  simp only [Faa.push_new_node, Faa.geth_set_self q.heap t _ htl, hnext]
  simp [ht]

theorem Faa.popLoop_empty_eq {T : Type} (fuel : Nat) (q : Faa.Queue T) (h : Nat)
    (hh : q.head = some h)
    (hple : (Faa.geth q.heap h).pop_idx ≤ (Faa.geth q.heap h).push_idx)
    (hnext : (Faa.geth q.heap h).next = none) :
    Faa.popLoop (fuel + 1) q = { res := some none, queue := q, evs := [] } := by
  simp only [Faa.popLoop, hh]
  rw [if_pos ⟨hple, hnext⟩]

theorem Faa.popLoop_take_eq {T : Type} (fuel : Nat) (q : Faa.Queue T) (h nx : Nat)
    (hh : q.head = some h) (hhl : h < q.heap.length)
    (hnext : (Faa.geth q.heap h).next = some nx)
    (hpN : (Faa.geth q.heap h).pop_idx < Faa.NODE_SIZE)
    (hprev : ((Faa.geth q.heap h).elements (Faa.geth q.heap h).pop_idx).state ≠ Faa.UNINIT) :
    Faa.popLoop (fuel + 1) q =
      { res := some (some ((Faa.geth q.heap h).elements (Faa.geth q.heap h).pop_idx).inner)
        queue :=
          { q with
            heap := q.heap.set h
              { push_idx := (Faa.geth q.heap h).push_idx
                pop_idx := (Faa.geth q.heap h).pop_idx + 1
                next := (Faa.geth q.heap h).next
                elements := fun j =>
                  if j = (Faa.geth q.heap h).pop_idx then
                    { inner := ((Faa.geth q.heap h).elements (Faa.geth q.heap h).pop_idx).inner
                      state :=
                        ((Faa.geth q.heap h).elements (Faa.geth q.heap h).pop_idx).state |||
                          Faa.READER }
                  else (Faa.geth q.heap h).elements j } }
        evs := [Faa.Ev.popRes h (Faa.geth q.heap h).pop_idx] } := by
  simp only [Faa.popLoop, hh]
  rw [if_neg (by simp [hnext])]
  rw [if_pos hpN]
  rw [Faa.geth_set_self q.heap h _ hhl]
  simp only []
  rw [if_neg hprev]
  simp [List.set_set]

theorem Faa.popLoop_unlink_eq {T : Type} (fuel : Nat) (q : Faa.Queue T) (h nx : Nat)
    (hh : q.head = some h) (hhl : h < q.heap.length)
    (hnext : (Faa.geth q.heap h).next = some nx)
    (hpN : Faa.NODE_SIZE ≤ (Faa.geth q.heap h).pop_idx) :
    Faa.popLoop (fuel + 1) q =
      { res :=
          (Faa.popLoop fuel
            { q with
              heap := q.heap.set h
                { push_idx := (Faa.geth q.heap h).push_idx
                  pop_idx := (Faa.geth q.heap h).pop_idx + 1
                  next := (Faa.geth q.heap h).next
                  elements := (Faa.geth q.heap h).elements }
              head := some nx
              retired := q.retired ++ [h] }).res
        queue :=
          (Faa.popLoop fuel
            { q with
              heap := q.heap.set h
                { push_idx := (Faa.geth q.heap h).push_idx
                  pop_idx := (Faa.geth q.heap h).pop_idx + 1
                  next := (Faa.geth q.heap h).next
                  elements := (Faa.geth q.heap h).elements }
              head := some nx
              retired := q.retired ++ [h] }).queue
        evs := Faa.Ev.popRes h (Faa.geth q.heap h).pop_idx ::
          (Faa.popLoop fuel
            { q with
              heap := q.heap.set h
                { push_idx := (Faa.geth q.heap h).push_idx
                  pop_idx := (Faa.geth q.heap h).pop_idx + 1
                  next := (Faa.geth q.heap h).next
                  elements := (Faa.geth q.heap h).elements }
              head := some nx
              retired := q.retired ++ [h] }).evs } := by
  simp only [Faa.popLoop, hh]
  rw [if_neg (by simp [hnext])]
  rw [if_neg (Nat.not_lt.mpr hpN)]
  simp only [hnext, hh]
  simp [hh]

theorem Faa.chunks_map_eq {T : Type} (heap1 heap2 : List (Faa.Node T)) (s n : Nat)
    (hx : ∀ i, s ≤ i → i < s + n → Faa.geth heap2 i = Faa.geth heap1 i) :
    (List.range' s n).map (fun i => Faa.nodeDropDestructs (Faa.geth heap2 i)) =
      (List.range' s n).map (fun i => Faa.nodeDropDestructs (Faa.geth heap1 i)) := by
  apply List.map_congr_left
  intro i hi
  rw [List.mem_range'_1] at hi
  rw [hx i hi.1 hi.2]

theorem Faa.or_writer_reader_eval (c d : Prop) [Decidable c] [Decidable d] :
    (((if c then Faa.WRITER else 0) ||| (if d then Faa.READER else 0)) : Nat) =
      if c then (if d then 3 else 1) else (if d then 2 else 0) := by
  split_ifs <;> decide

theorem Faa.push_case_append {T : Type} (q : Faa.Queue T) (hp t : Nat) (v : T)
    (hInv : Faa.InvAt q hp t) (hk : (Faa.geth q.heap t).push_idx < Faa.NODE_SIZE) (fuel : Nat) :
    (Faa.pushLoop (fuel + 1) q v).done = true ∧
    Faa.InvAt (Faa.pushLoop (fuel + 1) q v).queue hp t ∧
    (Faa.pushLoop (fuel + 1) q v).queue.heap.length = q.heap.length ∧
    Faa.liveChunks (Faa.pushLoop (fuel + 1) q v).queue hp = Faa.liveChunks q hp ++ [some v] ∧
    (Faa.pushLoop (fuel + 1) q v).queue.retired = q.retired ∧
    (Faa.pushLoop (fuel + 1) q v).evs = [Faa.Ev.pushRes t (Faa.geth q.heap t).push_idx] ∧
    (∀ s, s < q.heap.length → Faa.pushIdxAt q s ≤ Faa.pushIdxAt (Faa.pushLoop (fuel + 1) q v).queue s) ∧
    (∀ s, s < q.heap.length → Faa.popIdxAt (Faa.pushLoop (fuel + 1) q v).queue s = Faa.popIdxAt q s) ∧
    Faa.pushIdxAt (Faa.pushLoop (fuel + 1) q v).queue t = (Faa.geth q.heap t).push_idx + 1 := by
  have htl := hInv.t_lt
  have htL : t + 1 = q.heap.length := by
    rcases Nat.lt_or_ge (t + 1) q.heap.length with hlt | hge
    · have := hInv.full_mid t hlt
      have : Faa.NODE_SIZE + 1 ≤ (Faa.geth q.heap t).push_idx := this
      omega
    · omega
  have hple : hp ≤ t := by have := hInv.h_lt; omega
  have hpt : (Faa.geth q.heap t).pop_idx ≤ (Faa.geth q.heap t).push_idx := by
    rcases Nat.lt_or_eq_of_le hple with hlt | heq
    · rw [hInv.pop_zero t hlt htl]; exact Nat.zero_le _
    · have := hInv.head_p
      rw [heq] at this
      exact Nat.le_trans this (Nat.min_le_left _ _)
  have hprev0 : ((Faa.geth q.heap t).elements (Faa.geth q.heap t).push_idx).state = 0 := by
    have hsl := (hInv.slots_ok t htl (Faa.geth q.heap t).push_idx hk).1
    rw [if_neg (by omega : ¬ (Faa.geth q.heap t).push_idx <
        min (Faa.geth q.heap t).push_idx Faa.NODE_SIZE)] at hsl
    rw [if_neg (by omega : ¬ (Faa.geth q.heap t).push_idx < (Faa.geth q.heap t).pop_idx)] at hsl
    simpa using hsl
  have hprev : ((Faa.geth q.heap t).elements (Faa.geth q.heap t).push_idx).state ≠
      Faa.READER := by rw [hprev0]; decide
  rw [Faa.pushLoop_append_eq fuel q v t hInv.tail_eq htl hk hprev]
  rw [hprev0]
  have hmin1 : min ((Faa.geth q.heap t).push_idx + 1) Faa.NODE_SIZE =
      (Faa.geth q.heap t).push_idx + 1 := Nat.min_eq_left hk
  have hmin0 : min (Faa.geth q.heap t).push_idx Faa.NODE_SIZE =
      (Faa.geth q.heap t).push_idx := Nat.min_eq_left (Nat.le_of_lt hk)
  refine ⟨rfl, ?_, by simp, ?_, rfl, rfl, ?_, ?_, ?_⟩
  · -- the invariant for the updated state
    refine ⟨hInv.head_eq, hInv.tail_eq, by simpa using hInv.h_lt, by simpa using hInv.t_lt,
      ?_, ?_, ?_, hInv.retired_eq, ?_, ?_, ?_, ?_, ?_, ?_⟩
    · -- chain
      intro i hi
      simp only [List.length_set] at hi
      have hit : i ≠ t := by omega
      rw [Faa.geth_set_ne q.heap t i _ (fun e => hit e.symm)]
      exact hInv.chain i hi
    · -- last_next
      simp only [List.length_set]
      have he : q.heap.length - 1 = t := by omega
      rw [he, Faa.geth_set_self q.heap t _ htl]
      have hln := hInv.last_next
      rw [he] at hln
      exact hln
    · -- tail_pos
      left
      simpa using htL
    · -- full_mid
      intro i hi
      simp only [List.length_set] at hi
      have hit : i ≠ t := by omega
      rw [Faa.geth_set_ne q.heap t i _ (fun e => hit e.symm)]
      exact hInv.full_mid i hi
    · -- last_k
      simp only [List.length_set]
      have : q.heap.length - 1 = t := by omega
      rw [this, Faa.geth_set_self q.heap t _ htl]
      exact hk
    · -- pop_zero
      intro i hgt hilt
      simp only [List.length_set] at hilt
      by_cases hit : i = t
      · subst hit
        rw [Faa.geth_set_self q.heap i _ htl]
        rcases Nat.lt_or_eq_of_le hple with hlt | heq
        · exact hInv.pop_zero i hlt htl
        · omega
      · rw [Faa.geth_set_ne q.heap t i _ (fun e => hit e.symm)]
        exact hInv.pop_zero i hgt hilt
    · -- retired_p
      intro i hilt
      have hit : i ≠ t := by omega
      rw [Faa.geth_set_ne q.heap t i _ (fun e => hit e.symm)]
      exact hInv.retired_p i hilt
    · -- head_p
      by_cases hht : hp = t
      · subst hht
        rw [Faa.geth_set_self q.heap hp _ htl]
        have := hInv.head_p
        simp only []
        omega
      · rw [Faa.geth_set_ne q.heap t hp _ (fun e => hht e.symm)]
        exact hInv.head_p
    · -- slots_ok
      intro i hilt
      simp only [List.length_set] at hilt
      by_cases hit : i = t
      · subst hit
        rw [Faa.geth_set_self q.heap i _ htl]
        intro j hj
        simp only []
        by_cases hjk : j = (Faa.geth q.heap i).push_idx
        · subst hjk
          rw [if_pos rfl]
          rw [hmin1]
          refine ⟨?_, ?_, ?_⟩
          · rw [if_pos (by omega)]
            rw [if_neg (by omega)]
            show (0 : Nat) ||| Faa.WRITER = Faa.WRITER ||| 0
            rfl
          · intro _; exact ⟨v, rfl⟩
          · intro hcon; omega
        · rw [if_neg hjk]
          have hs := hInv.slots_ok i htl j hj
          rw [hmin1]
          rw [hmin0] at hs
          refine ⟨?_, ?_, ?_⟩
          · rw [hs.1]
            have : (j < (Faa.geth q.heap i).push_idx + 1) ↔
                (j < (Faa.geth q.heap i).push_idx) := by omega
            rw [if_congr this rfl rfl]
          · intro hlt
            exact hs.2.1 (by omega)
          · intro hge
            exact hs.2.2 (by omega)
      · rw [Faa.geth_set_ne q.heap t i _ (fun e => hit e.symm)]
        exact hInv.slots_ok i hilt
  · -- liveChunks
    simp only [Faa.liveChunks, List.length_set]
    have hrange : q.heap.length - hp = (t - hp) + 1 := by omega
    rw [hrange]
    have hconc := @List.range'_concat 1 hp (t - hp)
    simp only [Nat.one_mul] at hconc
    rw [hconc]
    have hpt' : hp + (t - hp) = t := by omega
    rw [hpt']
    simp only [List.map_append, List.flatten_append, List.map_cons, List.map_nil,
      List.flatten_cons, List.flatten_nil, List.append_nil]
    rw [List.append_assoc]
    congr 1
    · congr 1
      apply Faa.chunks_map_eq
      intro i hi1 hi2
      have hne : i ≠ t := by omega
      rw [Faa.geth_set_ne q.heap t i _ (fun e => hne e.symm)]
    · rw [Faa.geth_set_self q.heap t _ htl]
      simp only [Faa.nodeDropDestructs, hmin1, hmin0]
      have h1 : (Faa.geth q.heap t).push_idx + 1 - (Faa.geth q.heap t).pop_idx =
          ((Faa.geth q.heap t).push_idx - (Faa.geth q.heap t).pop_idx) + 1 := by omega
      rw [h1]
      have hconc2 := @List.range'_concat 1 (Faa.geth q.heap t).pop_idx
        ((Faa.geth q.heap t).push_idx - (Faa.geth q.heap t).pop_idx)
      simp only [Nat.one_mul] at hconc2
      rw [hconc2]
      have h2 : (Faa.geth q.heap t).pop_idx +
          ((Faa.geth q.heap t).push_idx - (Faa.geth q.heap t).pop_idx) =
          (Faa.geth q.heap t).push_idx := by omega
      rw [h2]
      simp only [List.map_append, List.map_cons, List.map_nil]
      congr 1
      · apply List.map_congr_left
        intro j hj
        rw [List.mem_range'_1] at hj
        rw [if_neg (show ¬ j = (Faa.geth q.heap t).push_idx by omega)]
  · -- push cursor monotone
    intro s _
    simp only [Faa.pushIdxAt]
    by_cases hst : s = t
    · subst hst
      rw [Faa.geth_set_self q.heap s _ htl]
      simp only []
      omega
    · rw [Faa.geth_set_ne q.heap t s _ (fun e => hst e.symm)]
  · -- pop cursors unchanged
    intro s _
    simp only [Faa.popIdxAt]
    by_cases hst : s = t
    · subst hst
      rw [Faa.geth_set_self q.heap s _ htl]
    · rw [Faa.geth_set_ne q.heap t s _ (fun e => hst e.symm)]
  · -- the tail segment's push cursor advanced by exactly one
    simp only [Faa.pushIdxAt]
    rw [Faa.geth_set_self q.heap t _ htl]

theorem Faa.push_case_extend {T : Type} (q : Faa.Queue T) (hp t : Nat) (v : T)
    (hInv : Faa.InvAt q hp t) (htL : t + 1 = q.heap.length)
    (hkN : (Faa.geth q.heap t).push_idx = Faa.NODE_SIZE) (fuel : Nat) :
    (Faa.pushLoop (fuel + 1) q v).done = true ∧
    Faa.InvAt (Faa.pushLoop (fuel + 1) q v).queue hp t ∧
    (Faa.pushLoop (fuel + 1) q v).queue.heap.length = q.heap.length + 1 ∧
    Faa.liveChunks (Faa.pushLoop (fuel + 1) q v).queue hp = Faa.liveChunks q hp ++ [some v] ∧
    (Faa.pushLoop (fuel + 1) q v).queue.retired = q.retired ∧
    (Faa.pushLoop (fuel + 1) q v).evs = [Faa.Ev.pushRes t (Faa.geth q.heap t).push_idx] ∧
    (∀ s, s < q.heap.length → Faa.pushIdxAt q s ≤ Faa.pushIdxAt (Faa.pushLoop (fuel + 1) q v).queue s) ∧
    (∀ s, s < q.heap.length → Faa.popIdxAt (Faa.pushLoop (fuel + 1) q v).queue s = Faa.popIdxAt q s) ∧
    Faa.pushIdxAt (Faa.pushLoop (fuel + 1) q v).queue t = (Faa.geth q.heap t).push_idx + 1 ∧
    ((Faa.geth (Faa.pushLoop (fuel + 1) q v).queue.heap q.heap.length).elements 0).inner =
      some v ∧
    (Faa.geth (Faa.pushLoop (fuel + 1) q v).queue.heap t).next = some q.heap.length := by
  have htl := hInv.t_lt
  have hple : hp ≤ t := by have := hInv.h_lt; omega
  have hnext : (Faa.geth q.heap t).next = none := by
    have hln := hInv.last_next
    have he : q.heap.length - 1 = t := by omega
    rw [he] at hln
    exact hln
  rw [Faa.pushLoop_extend_eq fuel q v t hInv.tail_eq htl (Nat.le_of_eq hkN.symm) hnext]
  have hlen2 : ((q.heap.set t
      { push_idx := (Faa.geth q.heap t).push_idx + 1
        pop_idx := (Faa.geth q.heap t).pop_idx
        next := some q.heap.length
        elements := (Faa.geth q.heap t).elements }) ++
      [Faa.Node.with_tentative v]).length = q.heap.length + 1 := by simp
  have hget2 : ∀ i, i < q.heap.length → i ≠ t →
      Faa.geth ((q.heap.set t
        { push_idx := (Faa.geth q.heap t).push_idx + 1
          pop_idx := (Faa.geth q.heap t).pop_idx
          next := some q.heap.length
          elements := (Faa.geth q.heap t).elements }) ++
        [Faa.Node.with_tentative v]) i = Faa.geth q.heap i := by
    intro i hi hit
    rw [Faa.geth_append_lt _ _ i (by simpa using hi)]
    rw [Faa.geth_set_ne q.heap t i _ (fun e => hit e.symm)]
  have hgett : Faa.geth ((q.heap.set t
      { push_idx := (Faa.geth q.heap t).push_idx + 1
        pop_idx := (Faa.geth q.heap t).pop_idx
        next := some q.heap.length
        elements := (Faa.geth q.heap t).elements }) ++
      [Faa.Node.with_tentative v]) t =
      { push_idx := (Faa.geth q.heap t).push_idx + 1
        pop_idx := (Faa.geth q.heap t).pop_idx
        next := some q.heap.length
        elements := (Faa.geth q.heap t).elements } := by
    rw [Faa.geth_append_lt _ _ t (by simpa using htl)]
    rw [Faa.geth_set_self q.heap t _ htl]
  have hgetL : Faa.geth ((q.heap.set t
      { push_idx := (Faa.geth q.heap t).push_idx + 1
        pop_idx := (Faa.geth q.heap t).pop_idx
        next := some q.heap.length
        elements := (Faa.geth q.heap t).elements }) ++
      [Faa.Node.with_tentative v]) q.heap.length = Faa.Node.with_tentative v :=
    Faa.geth_append_at _ _ _ (by simp)
  have hgetL' : Faa.geth ((q.heap.set t
      { push_idx := (Faa.geth q.heap t).push_idx + 1
        pop_idx := (Faa.geth q.heap t).pop_idx
        next := some q.heap.length
        elements := (Faa.geth q.heap t).elements }) ++
      [Faa.Node.with_tentative v]) (t + 1) = Faa.Node.with_tentative v :=
    Faa.geth_append_at _ _ _ (by simpa using htL)
  refine ⟨rfl, ?_, hlen2, ?_, rfl, by rw [hkN], ?_, ?_, ?_, ?_, ?_⟩
  · -- invariant, now in the lag shape
    refine ⟨hInv.head_eq, hInv.tail_eq, ?_, ?_, ?_, ?_, ?_, hInv.retired_eq, ?_, ?_, ?_, ?_,
      ?_, ?_⟩
    · rw [hlen2]; omega
    · rw [hlen2]; omega
    · -- chain
      intro i hi
      rw [hlen2] at hi
      by_cases hit : i = t
      · subst hit
        rw [hgett]
        show some q.heap.length = some (i + 1)
        rw [← htL]
      · have hi' : i < q.heap.length := by omega
        rw [hget2 i hi' hit]
        have : i + 1 < q.heap.length := by omega
        exact hInv.chain i this
    · -- last_next
      rw [hlen2]
      have he : q.heap.length + 1 - 1 = q.heap.length := by omega
      rw [he, hgetL]
      rfl
    · -- tail_pos
      right
      rw [hlen2]
      refine ⟨by omega, ?_⟩
      rw [hgetL']
      rfl
    · -- full_mid
      intro i hi
      rw [hlen2] at hi
      by_cases hit : i = t
      · subst hit
        rw [hgett]
        show Faa.NODE_SIZE + 1 ≤ (Faa.geth q.heap i).push_idx + 1
        omega
      · have hi' : i < q.heap.length := by omega
        have hi2 : i + 1 < q.heap.length := by omega
        rw [hget2 i hi' hit]
        exact hInv.full_mid i hi2
    · -- last_k
      rw [hlen2]
      have he : q.heap.length + 1 - 1 = q.heap.length := by omega
      rw [he, hgetL]
      show 1 ≤ Faa.NODE_SIZE
      decide
    · -- pop_zero
      intro i hgt hilt
      rw [hlen2] at hilt
      by_cases hiL : i = q.heap.length
      · subst hiL
        rw [hgetL]
        rfl
      · have hi' : i < q.heap.length := by omega
        by_cases hit : i = t
        · subst hit
          rw [hgett]
          show (Faa.geth q.heap i).pop_idx = 0
          exact hInv.pop_zero i hgt hi'
        · rw [hget2 i hi' hit]
          exact hInv.pop_zero i hgt hi'
    · -- retired_p
      intro i hilt
      have hi' : i < q.heap.length := by omega
      have hit : i ≠ t := by omega
      rw [hget2 i hi' hit]
      exact hInv.retired_p i hilt
    · -- head_p
      by_cases hht : hp = t
      · subst hht
        rw [hgett]
        show (Faa.geth q.heap hp).pop_idx ≤ min ((Faa.geth q.heap hp).push_idx + 1) Faa.NODE_SIZE
        have := hInv.head_p
        have hm : min ((Faa.geth q.heap hp).push_idx + 1) Faa.NODE_SIZE = Faa.NODE_SIZE := by
          rw [hkN]; omega
        rw [hm]
        rw [hkN] at this
        simpa using this
      · rw [hget2 hp hInv.h_lt hht]
        exact hInv.head_p
    · -- slots_ok
      intro i hilt
      rw [hlen2] at hilt
      by_cases hiL : i = q.heap.length
      · subst hiL
        rw [hgetL]
        intro j hj
        simp only [Faa.Node.with_tentative]
        by_cases hj0 : j = 0
        · subst hj0
          rw [if_pos rfl]
          refine ⟨?_, ?_, ?_⟩
          · rw [if_pos (by simp [Faa.NODE_SIZE])]
            rw [if_neg (by omega)]
            rfl
          · intro _; exact ⟨v, rfl⟩
          · intro hcon
            have : min 1 Faa.NODE_SIZE = 1 := by simp [Faa.NODE_SIZE]
            omega
        · rw [if_neg hj0]
          have hmin : min 1 Faa.NODE_SIZE = 1 := by simp [Faa.NODE_SIZE]
          refine ⟨?_, ?_, ?_⟩
          · simp only [hmin]
            rw [if_neg (by omega)]
            rw [if_neg (by omega)]
            rfl
          · intro hcon; rw [hmin] at hcon; omega
          · intro _; rfl
      · have hi' : i < q.heap.length := by omega
        by_cases hit : i = t
        · subst hit
          rw [hgett]
          intro j hj
          have hs := hInv.slots_ok i hi' j hj
          have hm1 : min ((Faa.geth q.heap i).push_idx + 1) Faa.NODE_SIZE = Faa.NODE_SIZE := by
            rw [hkN]; omega
          have hm0 : min (Faa.geth q.heap i).push_idx Faa.NODE_SIZE = Faa.NODE_SIZE := by
            rw [hkN]; omega
          rw [hm0] at hs
          simp only [hm1]
          exact hs
        · rw [hget2 i hi' hit]
          exact hInv.slots_ok i hi'
  · -- liveChunks
    simp only [Faa.liveChunks, hlen2]
    have hrange : q.heap.length + 1 - hp = (q.heap.length - hp) + 1 := by omega
    rw [hrange]
    have hconc := @List.range'_concat 1 hp (q.heap.length - hp)
    simp only [Nat.one_mul] at hconc
    rw [hconc]
    have hpt' : hp + (q.heap.length - hp) = q.heap.length := by omega
    rw [hpt']
    simp only [List.map_append, List.flatten_append, List.map_cons, List.map_nil,
      List.flatten_cons, List.flatten_nil, List.append_nil]
    congr 1
    · apply congrArg
      apply List.map_congr_left
      intro i hi
      rw [List.mem_range'_1] at hi
      have hi' : i < q.heap.length := by omega
      by_cases hit : i = t
      · subst hit
        rw [hgett]
        simp only [Faa.nodeDropDestructs]
        have hm1 : min ((Faa.geth q.heap i).push_idx + 1) Faa.NODE_SIZE = Faa.NODE_SIZE := by
          rw [hkN]; omega
        have hm0 : min (Faa.geth q.heap i).push_idx Faa.NODE_SIZE = Faa.NODE_SIZE := by
          rw [hkN]; omega
        rw [hm1, hm0]
      · rw [hget2 i hi' hit]
    · rw [hgetL]
      simp only [Faa.nodeDropDestructs, Faa.Node.with_tentative]
      have hm : min 1 Faa.NODE_SIZE = 1 := by simp [Faa.NODE_SIZE]
      rw [hm]
      rfl
  · -- push cursor monotone
    intro s hs'
    simp only [Faa.pushIdxAt]
    by_cases hst : s = t
    · subst hst
      rw [hgett]
      show (Faa.geth q.heap s).push_idx ≤ (Faa.geth q.heap s).push_idx + 1
      omega
    · rw [hget2 s hs' hst]
  · -- pop cursors unchanged
    intro s hs'
    simp only [Faa.popIdxAt]
    by_cases hst : s = t
    · subst hst
      rw [hgett]
    · rw [hget2 s hs' hst]
  · -- the overflowed segment's push cursor advanced by exactly one
    simp only [Faa.pushIdxAt]
    rw [hgett]
  · -- the new segment is pre-filled with the element
    rw [hgetL]
    simp [Faa.Node.with_tentative]
  · -- the new segment is linked behind the old tail
    rw [hgett]

theorem Faa.push_case_lagfix {T : Type} (q : Faa.Queue T) (hp t : Nat) (v : T)
    (hInv : Faa.InvAt q hp t) (hlag : t + 2 = q.heap.length) (fuel : Nat) :
    ∃ q2 : Faa.Queue T,
      Faa.pushLoop (fuel + 1) q v =
        { done := (Faa.pushLoop fuel q2 v).done
          queue := (Faa.pushLoop fuel q2 v).queue
          evs := Faa.Ev.pushRes t (Faa.geth q.heap t).push_idx ::
            (Faa.pushLoop fuel q2 v).evs
          destructs := (Faa.pushLoop fuel q2 v).destructs } ∧
      Faa.InvAt q2 hp (t + 1) ∧ q2.heap.length = q.heap.length ∧
      (t + 1) + 1 = q2.heap.length ∧
      (Faa.geth q2.heap (t + 1)).push_idx = (Faa.geth q.heap (t + 1)).push_idx ∧
      Faa.liveChunks q2 hp = Faa.liveChunks q hp ∧ q2.retired = q.retired ∧
      Faa.NODE_SIZE ≤ (Faa.geth q.heap t).push_idx ∧
      (∀ s, s < q.heap.length → Faa.pushIdxAt q s ≤ Faa.pushIdxAt q2 s) ∧
      (∀ s, s < q.heap.length → Faa.popIdxAt q2 s = Faa.popIdxAt q s) ∧
      Faa.pushIdxAt q2 t = (Faa.geth q.heap t).push_idx + 1 := by
  have htl := hInv.t_lt
  have ht1 : t + 1 < q.heap.length := by omega
  have hkN : Faa.NODE_SIZE + 1 ≤ (Faa.geth q.heap t).push_idx := hInv.full_mid t ht1
  have hnext : (Faa.geth q.heap t).next = some (t + 1) := hInv.chain t ht1
  have hple : hp ≤ t + 1 := by have := hInv.h_lt; omega
  refine ⟨_, Faa.pushLoop_lagfix_eq fuel q v t (t + 1) hInv.tail_eq htl (by omega) hnext,
    ?_, by simp, ?_, ?_, ?_, rfl, by omega, ?_, ?_, ?_⟩
  · -- invariant with tail advanced to t+1
    refine ⟨hInv.head_eq, rfl, by simpa using hInv.h_lt, by simpa using ht1,
      ?_, ?_, ?_, hInv.retired_eq, ?_, ?_, ?_, ?_, ?_, ?_⟩
    · -- chain
      intro i hi
      simp only [List.length_set] at hi
      by_cases hit : i = t
      · subst hit
        rw [Faa.geth_set_self q.heap i _ htl]
        exact hInv.chain i hi
      · rw [Faa.geth_set_ne q.heap t i _ (fun e => hit e.symm)]
        exact hInv.chain i hi
    · -- last_next
      simp only [List.length_set]
      have hne : q.heap.length - 1 ≠ t := by omega
      rw [Faa.geth_set_ne q.heap t _ _ (fun e => hne e.symm)]
      exact hInv.last_next
    · -- tail_pos
      left
      simp only [List.length_set]
      omega
    · -- full_mid
      intro i hi
      simp only [List.length_set] at hi
      by_cases hit : i = t
      · subst hit
        rw [Faa.geth_set_self q.heap i _ htl]
        show Faa.NODE_SIZE + 1 ≤ (Faa.geth q.heap i).push_idx + 1
        omega
      · rw [Faa.geth_set_ne q.heap t i _ (fun e => hit e.symm)]
        exact hInv.full_mid i hi
    · -- last_k
      simp only [List.length_set]
      have hne : q.heap.length - 1 ≠ t := by omega
      rw [Faa.geth_set_ne q.heap t _ _ (fun e => hne e.symm)]
      exact hInv.last_k
    · -- pop_zero
      intro i hgt hilt
      simp only [List.length_set] at hilt
      by_cases hit : i = t
      · subst hit
        rw [Faa.geth_set_self q.heap i _ htl]
        show (Faa.geth q.heap i).pop_idx = 0
        exact hInv.pop_zero i hgt hilt
      · rw [Faa.geth_set_ne q.heap t i _ (fun e => hit e.symm)]
        exact hInv.pop_zero i hgt hilt
    · -- retired_p
      intro i hilt
      by_cases hit : i = t
      · subst hit
        rw [Faa.geth_set_self q.heap i _ htl]
        show (Faa.geth q.heap i).pop_idx = Faa.NODE_SIZE + 1
        exact hInv.retired_p i hilt
      · rw [Faa.geth_set_ne q.heap t i _ (fun e => hit e.symm)]
        exact hInv.retired_p i hilt
    · -- head_p
      by_cases hht : hp = t
      · subst hht
        rw [Faa.geth_set_self q.heap hp _ htl]
        show (Faa.geth q.heap hp).pop_idx ≤ min ((Faa.geth q.heap hp).push_idx + 1) Faa.NODE_SIZE
        have := hInv.head_p
        have hm0 : min (Faa.geth q.heap hp).push_idx Faa.NODE_SIZE = Faa.NODE_SIZE := by omega
        have hm1 : min ((Faa.geth q.heap hp).push_idx + 1) Faa.NODE_SIZE = Faa.NODE_SIZE := by
          omega
        rw [hm1]
        rw [hm0] at this
        exact this
      · rw [Faa.geth_set_ne q.heap t hp _ (fun e => hht e.symm)]
        exact hInv.head_p
    · -- slots_ok
      intro i hilt
      simp only [List.length_set] at hilt
      by_cases hit : i = t
      · subst hit
        rw [Faa.geth_set_self q.heap i _ htl]
        intro j hj
        have hs := hInv.slots_ok i hilt j hj
        have hm0 : min (Faa.geth q.heap i).push_idx Faa.NODE_SIZE = Faa.NODE_SIZE := by omega
        have hm1 : min ((Faa.geth q.heap i).push_idx + 1) Faa.NODE_SIZE = Faa.NODE_SIZE := by
          omega
        rw [hm0] at hs
        simp only [hm1]
        exact hs
      · rw [Faa.geth_set_ne q.heap t i _ (fun e => hit e.symm)]
        exact hInv.slots_ok i hilt
  · -- the tail segment is now the last
    simp only [List.length_set]
    omega
  · -- push cursor of the last segment unchanged
    have hne : t + 1 ≠ t := by omega
    rw [Faa.geth_set_ne q.heap t (t + 1) _ (fun e => hne e.symm)]
  · -- liveChunks unchanged
    simp only [Faa.liveChunks, List.length_set]
    apply congrArg
    apply List.map_congr_left
    intro i hi
    rw [List.mem_range'_1] at hi
    by_cases hit : i = t
    · subst hit
      rw [Faa.geth_set_self q.heap i _ htl]
      simp only [Faa.nodeDropDestructs]
      have hm0 : min (Faa.geth q.heap i).push_idx Faa.NODE_SIZE = Faa.NODE_SIZE := by omega
      have hm1 : min ((Faa.geth q.heap i).push_idx + 1) Faa.NODE_SIZE = Faa.NODE_SIZE := by omega
      rw [hm0, hm1]
    · rw [Faa.geth_set_ne q.heap t i _ (fun e => hit e.symm)]
  · -- push cursors monotone
    intro s _
    simp only [Faa.pushIdxAt]
    by_cases hst : s = t
    · subst hst
      rw [Faa.geth_set_self q.heap s _ htl]
      show (Faa.geth q.heap s).push_idx ≤ (Faa.geth q.heap s).push_idx + 1
      omega
    · rw [Faa.geth_set_ne q.heap t s _ (fun e => hst e.symm)]
  · -- pop cursors unchanged
    intro s _
    simp only [Faa.popIdxAt]
    by_cases hst : s = t
    · subst hst
      rw [Faa.geth_set_self q.heap s _ htl]
    · rw [Faa.geth_set_ne q.heap t s _ (fun e => hst e.symm)]
  · -- the old tail segment's push cursor advanced by exactly one
    simp only [Faa.pushIdxAt]
    rw [Faa.geth_set_self q.heap t _ htl]

theorem Faa.pop_case_take {T : Type} (q : Faa.Queue T) (hp t : Nat)
    (hInv : Faa.InvAt q hp t) (hh1 : hp + 1 < q.heap.length)
    (hpN : (Faa.geth q.heap hp).pop_idx < Faa.NODE_SIZE) (fuel : Nat) :
    (Faa.popLoop (fuel + 1) q).res =
      some (some ((Faa.geth q.heap hp).elements (Faa.geth q.heap hp).pop_idx).inner) ∧
    Faa.InvAt (Faa.popLoop (fuel + 1) q).queue hp t ∧
    (Faa.popLoop (fuel + 1) q).queue.heap.length = q.heap.length ∧
    Faa.liveChunks q hp =
      ((Faa.geth q.heap hp).elements (Faa.geth q.heap hp).pop_idx).inner ::
        Faa.liveChunks (Faa.popLoop (fuel + 1) q).queue hp ∧
    (Faa.popLoop (fuel + 1) q).queue.retired = q.retired ∧
    (Faa.popLoop (fuel + 1) q).evs = [Faa.Ev.popRes hp (Faa.geth q.heap hp).pop_idx] ∧
    (∀ s, s < q.heap.length →
      Faa.pushIdxAt (Faa.popLoop (fuel + 1) q).queue s = Faa.pushIdxAt q s) ∧
    (∀ s, s < q.heap.length →
      Faa.popIdxAt q s ≤ Faa.popIdxAt (Faa.popLoop (fuel + 1) q).queue s) ∧
    Faa.popIdxAt (Faa.popLoop (fuel + 1) q).queue hp = (Faa.geth q.heap hp).pop_idx + 1 := by
  have hhl := hInv.h_lt
  have hkN : Faa.NODE_SIZE + 1 ≤ (Faa.geth q.heap hp).push_idx := hInv.full_mid hp hh1
  have hnext : (Faa.geth q.heap hp).next = some (hp + 1) := hInv.chain hp hh1
  have hmN : min (Faa.geth q.heap hp).push_idx Faa.NODE_SIZE = Faa.NODE_SIZE := by omega
  have hstate : ((Faa.geth q.heap hp).elements (Faa.geth q.heap hp).pop_idx).state =
      Faa.WRITER := by
    have hs := (hInv.slots_ok hp hhl (Faa.geth q.heap hp).pop_idx hpN).1
    rw [hmN] at hs
    rw [if_pos hpN] at hs
    rw [if_neg (by omega)] at hs
    rw [hs]
    rfl
  have hprev : ((Faa.geth q.heap hp).elements (Faa.geth q.heap hp).pop_idx).state ≠
      Faa.UNINIT := by rw [hstate]; decide
  rw [Faa.popLoop_take_eq fuel q hp (hp + 1) hInv.head_eq hhl hnext hpN hprev]
  refine ⟨rfl, ?_, by simp, ?_, rfl, rfl, ?_, ?_, ?_⟩
  · -- invariant preserved
    refine ⟨hInv.head_eq, hInv.tail_eq, by simpa using hInv.h_lt, by simpa using hInv.t_lt,
      ?_, ?_, ?_, hInv.retired_eq, ?_, ?_, ?_, ?_, ?_, ?_⟩
    · -- chain
      intro i hi
      simp only [List.length_set] at hi
      by_cases hih : i = hp
      · subst hih
        rw [Faa.geth_set_self q.heap i _ hhl]
        exact hInv.chain i hi
      · rw [Faa.geth_set_ne q.heap hp i _ (fun e => hih e.symm)]
        exact hInv.chain i hi
    · -- last_next
      simp only [List.length_set]
      have hne : q.heap.length - 1 ≠ hp := by omega
      rw [Faa.geth_set_ne q.heap hp _ _ (fun e => hne e.symm)]
      exact hInv.last_next
    · -- tail_pos
      rcases hInv.tail_pos with hl | ⟨hr1, hr2⟩
      · left; simpa using hl
      · right
        have hne : t + 1 ≠ hp := by omega
        rw [Faa.geth_set_ne q.heap hp (t + 1) _ (fun e => hne e.symm)]
        simpa using ⟨hr1, hr2⟩
    · -- full_mid
      intro i hi
      simp only [List.length_set] at hi
      by_cases hih : i = hp
      · subst hih
        rw [Faa.geth_set_self q.heap i _ hhl]
        exact hInv.full_mid i hi
      · rw [Faa.geth_set_ne q.heap hp i _ (fun e => hih e.symm)]
        exact hInv.full_mid i hi
    · -- last_k
      simp only [List.length_set]
      have hne : q.heap.length - 1 ≠ hp := by omega
      rw [Faa.geth_set_ne q.heap hp _ _ (fun e => hne e.symm)]
      exact hInv.last_k
    · -- pop_zero
      intro i hgt hilt
      simp only [List.length_set] at hilt
      have hne : i ≠ hp := by omega
      rw [Faa.geth_set_ne q.heap hp i _ (fun e => hne e.symm)]
      exact hInv.pop_zero i hgt hilt
    · -- retired_p
      intro i hilt
      have hne : i ≠ hp := by omega
      rw [Faa.geth_set_ne q.heap hp i _ (fun e => hne e.symm)]
      exact hInv.retired_p i hilt
    · -- head_p
      rw [Faa.geth_set_self q.heap hp _ hhl]
      show (Faa.geth q.heap hp).pop_idx + 1 ≤ min (Faa.geth q.heap hp).push_idx Faa.NODE_SIZE
      omega
    · -- slots_ok
      intro i hilt
      simp only [List.length_set] at hilt
      by_cases hih : i = hp
      · subst hih
        rw [Faa.geth_set_self q.heap i _ hhl]
        intro j hj
        simp only []
        have hs := hInv.slots_ok i hilt j hj
        by_cases hjp : j = (Faa.geth q.heap i).pop_idx
        · subst hjp
          rw [if_pos rfl]
          refine ⟨?_, ?_, ?_⟩
          · rw [hstate]
            simp only [hmN]
            rw [if_pos hpN, if_pos (Nat.lt_succ_self (Faa.geth q.heap i).pop_idx)]
          · intro _
            rw [hmN] at hs
            exact hs.2.1 hpN
          · intro hcon
            simp only [hmN] at hcon
            omega
        · rw [if_neg hjp]
          simp only [hmN]
          rw [hmN] at hs
          refine ⟨?_, hs.2.1, hs.2.2⟩
          rw [hs.1]
          have he : (j < (Faa.geth q.heap i).pop_idx + 1) ↔ (j < (Faa.geth q.heap i).pop_idx) := by
            omega
          rw [if_congr he rfl rfl]
      · rw [Faa.geth_set_ne q.heap hp i _ (fun e => hih e.symm)]
        exact hInv.slots_ok i hilt
  · -- liveChunks loses its head element
    simp only [Faa.liveChunks, List.length_set]
    have hrange : q.heap.length - hp = (q.heap.length - hp - 1) + 1 := by omega
    rw [hrange]
    have hsucc := List.range'_succ hp (q.heap.length - hp - 1) 1
    simp only [Nat.one_mul] at hsucc
    rw [hsucc]
    simp only [List.map_cons, List.flatten_cons]
    have hrest : (List.map (fun i => Faa.nodeDropDestructs (Faa.geth (q.heap.set hp
        { push_idx := (Faa.geth q.heap hp).push_idx
          pop_idx := (Faa.geth q.heap hp).pop_idx + 1
          next := (Faa.geth q.heap hp).next
          elements := fun j =>
            if j = (Faa.geth q.heap hp).pop_idx then
              { inner := ((Faa.geth q.heap hp).elements (Faa.geth q.heap hp).pop_idx).inner
                state := ((Faa.geth q.heap hp).elements (Faa.geth q.heap hp).pop_idx).state |||
                  Faa.READER }
            else (Faa.geth q.heap hp).elements j }) i))
        (List.range' (hp + 1) (q.heap.length - hp - 1))) =
        List.map (fun i => Faa.nodeDropDestructs (Faa.geth q.heap i))
          (List.range' (hp + 1) (q.heap.length - hp - 1)) := by
      apply Faa.chunks_map_eq
      intro i hi1 hi2
      have hne : i ≠ hp := by omega
      rw [Faa.geth_set_ne q.heap hp i _ (fun e => hne e.symm)]
    rw [hrest]
    have hheadch : Faa.nodeDropDestructs (Faa.geth q.heap hp) =
        ((Faa.geth q.heap hp).elements (Faa.geth q.heap hp).pop_idx).inner ::
          Faa.nodeDropDestructs (Faa.geth (q.heap.set hp
            { push_idx := (Faa.geth q.heap hp).push_idx
              pop_idx := (Faa.geth q.heap hp).pop_idx + 1
              next := (Faa.geth q.heap hp).next
              elements := fun j =>
                if j = (Faa.geth q.heap hp).pop_idx then
                  { inner := ((Faa.geth q.heap hp).elements (Faa.geth q.heap hp).pop_idx).inner
                    state :=
                      ((Faa.geth q.heap hp).elements (Faa.geth q.heap hp).pop_idx).state |||
                        Faa.READER }
                else (Faa.geth q.heap hp).elements j }) hp) := by
      rw [Faa.geth_set_self q.heap hp _ hhl]
      simp only [Faa.nodeDropDestructs, hmN]
      have h1 : Faa.NODE_SIZE - (Faa.geth q.heap hp).pop_idx =
          (Faa.NODE_SIZE - ((Faa.geth q.heap hp).pop_idx + 1)) + 1 := by omega
      rw [h1]
      have hsucc2 := List.range'_succ (Faa.geth q.heap hp).pop_idx
        (Faa.NODE_SIZE - ((Faa.geth q.heap hp).pop_idx + 1)) 1
      simp only [Nat.one_mul] at hsucc2
      rw [hsucc2]
      simp only [List.map_cons]
      congr 1
      apply List.map_congr_left
      intro j hj
      rw [List.mem_range'_1] at hj
      rw [if_neg (show ¬ j = (Faa.geth q.heap hp).pop_idx by omega)]
    rw [hheadch]
    rfl
  · -- push cursors unchanged
    intro s hs'
    simp only [Faa.pushIdxAt]
    by_cases hsh : s = hp
    · subst hsh
      rw [Faa.geth_set_self q.heap s _ hhl]
    · rw [Faa.geth_set_ne q.heap hp s _ (fun e => hsh e.symm)]
  · -- pop cursors monotone
    intro s hs'
    simp only [Faa.popIdxAt]
    by_cases hsh : s = hp
    · subst hsh
      rw [Faa.geth_set_self q.heap s _ hhl]
      show (Faa.geth q.heap s).pop_idx ≤ (Faa.geth q.heap s).pop_idx + 1
      omega
    · rw [Faa.geth_set_ne q.heap hp s _ (fun e => hsh e.symm)]
  · -- the head segment's pop cursor advanced by exactly one
    simp only [Faa.popIdxAt]
    rw [Faa.geth_set_self q.heap hp _ hhl]

theorem Faa.pop_case_unlink {T : Type} (q : Faa.Queue T) (hp t : Nat)
    (hInv : Faa.InvAt q hp t) (hh1 : hp + 1 < q.heap.length)
    (hpN : (Faa.geth q.heap hp).pop_idx = Faa.NODE_SIZE) (fuel : Nat) :
    ∃ q2 : Faa.Queue T,
      Faa.popLoop (fuel + 1) q =
        { res := (Faa.popLoop fuel q2).res
          queue := (Faa.popLoop fuel q2).queue
          evs := Faa.Ev.popRes hp (Faa.geth q.heap hp).pop_idx :: (Faa.popLoop fuel q2).evs } ∧
      Faa.InvAt q2 (hp + 1) t ∧ q2.heap.length = q.heap.length ∧
      Faa.liveChunks q2 (hp + 1) = Faa.liveChunks q hp ∧
      q2.retired = q.retired ++ [hp] ∧
      Faa.popIdxAt q2 (hp + 1) = Faa.popIdxAt q (hp + 1) ∧
      (∀ s, s < q.heap.length → Faa.pushIdxAt q2 s = Faa.pushIdxAt q s) ∧
      (∀ s, s < q.heap.length → Faa.popIdxAt q s ≤ Faa.popIdxAt q2 s) ∧
      Faa.popIdxAt q2 hp = (Faa.geth q.heap hp).pop_idx + 1 := by
  have hhl := hInv.h_lt
  have hkN : Faa.NODE_SIZE + 1 ≤ (Faa.geth q.heap hp).push_idx := hInv.full_mid hp hh1
  have hnext : (Faa.geth q.heap hp).next = some (hp + 1) := hInv.chain hp hh1
  have hmN : min (Faa.geth q.heap hp).push_idx Faa.NODE_SIZE = Faa.NODE_SIZE := by omega
  refine ⟨_, Faa.popLoop_unlink_eq fuel q hp (hp + 1) hInv.head_eq hhl hnext (by omega),
    ?_, by simp, ?_, ?_, ?_, ?_, ?_, ?_⟩
  · -- invariant with head advanced
    refine ⟨rfl, hInv.tail_eq, by simpa using hh1, by simpa using hInv.t_lt,
      ?_, ?_, ?_, ?_, ?_, ?_, ?_, ?_, ?_, ?_⟩
    · -- chain
      intro i hi
      simp only [List.length_set] at hi
      by_cases hih : i = hp
      · subst hih
        rw [Faa.geth_set_self q.heap i _ hhl]
        exact hInv.chain i hi
      · rw [Faa.geth_set_ne q.heap hp i _ (fun e => hih e.symm)]
        exact hInv.chain i hi
    · -- last_next
      simp only [List.length_set]
      have hne : q.heap.length - 1 ≠ hp := by omega
      rw [Faa.geth_set_ne q.heap hp _ _ (fun e => hne e.symm)]
      exact hInv.last_next
    · -- tail_pos
      rcases hInv.tail_pos with hl | ⟨hr1, hr2⟩
      · left; simpa using hl
      · right
        have hne : t + 1 ≠ hp := by omega
        rw [Faa.geth_set_ne q.heap hp (t + 1) _ (fun e => hne e.symm)]
        simpa using ⟨hr1, hr2⟩
    · -- retired_eq
      show q.retired ++ [hp] = List.range (hp + 1)
      rw [hInv.retired_eq, List.range_succ]
    · -- full_mid
      intro i hi
      simp only [List.length_set] at hi
      by_cases hih : i = hp
      · subst hih
        rw [Faa.geth_set_self q.heap i _ hhl]
        exact hInv.full_mid i hi
      · rw [Faa.geth_set_ne q.heap hp i _ (fun e => hih e.symm)]
        exact hInv.full_mid i hi
    · -- last_k
      simp only [List.length_set]
      have hne : q.heap.length - 1 ≠ hp := by omega
      rw [Faa.geth_set_ne q.heap hp _ _ (fun e => hne e.symm)]
      exact hInv.last_k
    · -- pop_zero
      intro i hgt hilt
      simp only [List.length_set] at hilt
      have hne : i ≠ hp := by omega
      rw [Faa.geth_set_ne q.heap hp i _ (fun e => hne e.symm)]
      exact hInv.pop_zero i (by omega) hilt
    · -- retired_p
      intro i hilt
      by_cases hih : i = hp
      · subst hih
        rw [Faa.geth_set_self q.heap i _ hhl]
        show (Faa.geth q.heap i).pop_idx + 1 = Faa.NODE_SIZE + 1
        omega
      · rw [Faa.geth_set_ne q.heap hp i _ (fun e => hih e.symm)]
        exact hInv.retired_p i (by omega)
    · -- head_p
      have hne : hp + 1 ≠ hp := by omega
      rw [Faa.geth_set_ne q.heap hp (hp + 1) _ (fun e => hne e.symm)]
      rw [hInv.pop_zero (hp + 1) (by omega) hh1]
      exact Nat.zero_le _
    · -- slots_ok
      intro i hilt
      simp only [List.length_set] at hilt
      by_cases hih : i = hp
      · subst hih
        rw [Faa.geth_set_self q.heap i _ hhl]
        intro j hj
        simp only []
        have hs := hInv.slots_ok i hilt j hj
        refine ⟨?_, hs.2.1, hs.2.2⟩
        rw [hs.1]
        have he : (j < (Faa.geth q.heap i).pop_idx + 1) ↔ (j < (Faa.geth q.heap i).pop_idx) := by
          omega
        rw [if_congr he rfl rfl]
      · rw [Faa.geth_set_ne q.heap hp i _ (fun e => hih e.symm)]
        exact hInv.slots_ok i hilt
  · -- liveChunks preserved
    simp only [Faa.liveChunks, List.length_set]
    have hrange : q.heap.length - hp = (q.heap.length - (hp + 1)) + 1 := by omega
    rw [hrange]
    have hsucc := List.range'_succ hp (q.heap.length - (hp + 1)) 1
    simp only [Nat.one_mul] at hsucc
    rw [hsucc]
    simp only [List.map_cons, List.flatten_cons]
    have hempty : Faa.nodeDropDestructs (Faa.geth q.heap hp) = [] := by
      simp only [Faa.nodeDropDestructs, hmN, hpN]
      rw [Nat.sub_self]
      rfl
    rw [hempty]
    rw [List.nil_append]
    apply congrArg
    apply Faa.chunks_map_eq
    intro i hi1 hi2
    have hne : i ≠ hp := by omega
    rw [Faa.geth_set_ne q.heap hp i _ (fun e => hne e.symm)]
  · -- retired extended
    rfl
  · -- pop cursor of the new head unchanged
    simp only [Faa.popIdxAt]
    have hne : hp + 1 ≠ hp := by omega
    rw [Faa.geth_set_ne q.heap hp (hp + 1) _ (fun e => hne e.symm)]
  · -- push cursors unchanged
    intro s hs'
    simp only [Faa.pushIdxAt]
    by_cases hsh : s = hp
    · subst hsh
      rw [Faa.geth_set_self q.heap s _ hhl]
    · rw [Faa.geth_set_ne q.heap hp s _ (fun e => hsh e.symm)]
  · -- pop cursors monotone
    intro s hs'
    simp only [Faa.popIdxAt]
    by_cases hsh : s = hp
    · subst hsh
      rw [Faa.geth_set_self q.heap s _ hhl]
      show (Faa.geth q.heap s).pop_idx ≤ (Faa.geth q.heap s).pop_idx + 1
      omega
    · rw [Faa.geth_set_ne q.heap hp s _ (fun e => hsh e.symm)]
  · -- the unlinked segment's pop cursor advanced by exactly one
    simp only [Faa.popIdxAt]
    rw [Faa.geth_set_self q.heap hp _ hhl]

theorem Faa.pop_case_empty {T : Type} (q : Faa.Queue T) (hp t : Nat)
    (hInv : Faa.InvAt q hp t) (hL : hp + 1 = q.heap.length) (fuel : Nat) :
    Faa.popLoop (fuel + 1) q = { res := some none, queue := q, evs := [] } := by
  have hple : (Faa.geth q.heap hp).pop_idx ≤ (Faa.geth q.heap hp).push_idx :=
    Nat.le_trans hInv.head_p (Nat.min_le_left _ _)
  have hnext : (Faa.geth q.heap hp).next = none := by
    have hln := hInv.last_next
    have he : q.heap.length - 1 = hp := by omega
    rw [he] at hln
    exact hln
  exact Faa.popLoop_empty_eq fuel q hp hInv.head_eq hple hnext

theorem Faa.InvAt_new {T : Type} : Faa.InvAt (Faa.Queue.new (T := T)) 0 0 := by
  refine ⟨rfl, rfl, ?_, ?_, ?_, rfl, Or.inl rfl, rfl, ?_, ?_, ?_, ?_, ?_, ?_⟩
  · show (0 : Nat) < 1; omega
  · show (0 : Nat) < 1; omega
  · intro i hi
    exact absurd hi (by show ¬ i + 1 < 1; omega)
  · intro i hi
    exact absurd hi (by show ¬ i + 1 < 1; omega)
  · show (0 : Nat) ≤ Faa.NODE_SIZE
    exact Nat.zero_le _
  · intro i hgt hlt
    exact absurd hlt (by show ¬ i < 1; omega)
  · intro i hlt
    exact absurd hlt (by omega)
  · show (0 : Nat) ≤ min 0 Faa.NODE_SIZE
    exact Nat.zero_le _
  · intro i hlt
    have hi0 : i = 0 := by
      have : i < 1 := hlt
      omega
    subst hi0
    show Faa.slotsOk Faa.Node.new
    intro j _
    have hpk : (Faa.Node.new (T := T)).push_idx = 0 := rfl
    have hpp : (Faa.Node.new (T := T)).pop_idx = 0 := rfl
    refine ⟨?_, ?_, ?_⟩
    · show Faa.UNINIT = _
      rw [if_neg (by rw [hpk, Nat.zero_min]; omega), if_neg (by rw [hpp]; omega)]
      rfl
    · intro hcon
      rw [hpk, Nat.zero_min] at hcon
      omega
    · intro _
      rfl

theorem Faa.push_preserves {T : Type} (q : Faa.Queue T) (hp t : Nat) (v : T)
    (hInv : Faa.InvAt q hp t) :
    ∃ t',
      Faa.InvAt (Faa.push q v).queue hp t' ∧
      (Faa.push q v).done = true ∧
      Faa.liveChunks (Faa.push q v).queue hp = Faa.liveChunks q hp ++ [some v] ∧
      (Faa.push q v).queue.retired = q.retired ∧
      q.heap.length ≤ (Faa.push q v).queue.heap.length ∧
      (∀ s, s < q.heap.length → Faa.pushIdxAt q s ≤ Faa.pushIdxAt (Faa.push q v).queue s) ∧
      (∀ s, s < q.heap.length → Faa.popIdxAt (Faa.push q v).queue s = Faa.popIdxAt q s) ∧
      (∀ e ∈ (Faa.push q v).evs, ∃ s i, e = Faa.Ev.pushRes s i ∧ s < q.heap.length ∧
          Faa.pushIdxAt q s ≤ i ∧ i < Faa.pushIdxAt (Faa.push q v).queue s) ∧
      (Faa.push q v).evs.Nodup := by
  rcases hInv.tail_pos with htL | ⟨hlag, hk1⟩
  · -- no tail lag: the tail is the last segment
    have hklast : (Faa.geth q.heap t).push_idx ≤ Faa.NODE_SIZE := by
      have hx := hInv.last_k
      rw [show q.heap.length - 1 = t by omega] at hx
      exact hx
    rcases Nat.lt_or_eq_of_le hklast with hk | hk
    · -- in-range slot write
      obtain ⟨hdone, hInv', hlen, hchunks, hret, hevs, hmono, hpopeq, hexact⟩ :=
        Faa.push_case_append q hp t v hInv hk (q.heap.length + 2)
      have hevs' : (Faa.push q v).evs =
          [Faa.Ev.pushRes t (Faa.geth q.heap t).push_idx] := hevs
      have hexact' : Faa.pushIdxAt (Faa.push q v).queue t =
          (Faa.geth q.heap t).push_idx + 1 := hexact
      refine ⟨t, hInv', hdone, hchunks, hret, Nat.le_of_eq hlen.symm, hmono, hpopeq, ?_, ?_⟩
      · intro e he
        rw [hevs'] at he
        rw [List.mem_singleton] at he
        refine ⟨t, (Faa.geth q.heap t).push_idx, he, hInv.t_lt, Nat.le_refl _, ?_⟩
        rw [hexact']
        omega
      · rw [hevs']
        simp
    · -- segment extension
      obtain ⟨hdone, hInv', hlen, hchunks, hret, hevs, hmono, hpopeq, hexact, hfill, hlink⟩ :=
        Faa.push_case_extend q hp t v hInv htL hk (q.heap.length + 2)
      have hevs' : (Faa.push q v).evs =
          [Faa.Ev.pushRes t (Faa.geth q.heap t).push_idx] := hevs
      have hexact' : Faa.pushIdxAt (Faa.push q v).queue t =
          (Faa.geth q.heap t).push_idx + 1 := hexact
      have hlen' : (Faa.push q v).queue.heap.length = q.heap.length + 1 := hlen
      refine ⟨t, hInv', hdone, hchunks, hret, by omega, hmono, hpopeq, ?_, ?_⟩
      · intro e he
        rw [hevs'] at he
        rw [List.mem_singleton] at he
        refine ⟨t, (Faa.geth q.heap t).push_idx, he, hInv.t_lt, Nat.le_refl _, ?_⟩
        rw [hexact']
        omega
      · rw [hevs']
        simp
  · -- tail lag: fix the lag, then land in the no-lag cases
    obtain ⟨q2, heq, hInv2, hlen2, hlast2, hkeep2, hchunks2, hret2, hkN2, hmono2, hpopeq2,
      hexact2⟩ := Faa.push_case_lagfix q hp t v hInv hlag (q.heap.length + 2)
    have heq' : Faa.push q v =
        { done := (Faa.pushLoop (q.heap.length + 1 + 1) q2 v).done
          queue := (Faa.pushLoop (q.heap.length + 1 + 1) q2 v).queue
          evs := Faa.Ev.pushRes t (Faa.geth q.heap t).push_idx ::
            (Faa.pushLoop (q.heap.length + 1 + 1) q2 v).evs
          destructs := (Faa.pushLoop (q.heap.length + 1 + 1) q2 v).destructs } := heq
    have hklast2 : (Faa.geth q2.heap (t + 1)).push_idx ≤ Faa.NODE_SIZE := by
      have hx := hInv2.last_k
      rw [show q2.heap.length - 1 = t + 1 by omega] at hx
      exact hx
    have ht1L : t + 1 < q.heap.length := by omega
    rcases Nat.lt_or_eq_of_le hklast2 with hk2 | hk2
    · -- lag fix then in-range write on the last segment
      obtain ⟨hdone, hInv', hlen, hchunks, hret, hevs, hmono, hpopeq, hexact⟩ :=
        Faa.push_case_append q2 hp (t + 1) v hInv2 hk2 (q.heap.length + 1)
      rw [heq']
      refine ⟨t + 1, hInv', hdone, ?_, ?_, ?_, ?_, ?_, ?_, ?_⟩
      · show Faa.liveChunks (Faa.pushLoop (q.heap.length + 1 + 1) q2 v).queue hp = _
        rw [hchunks, hchunks2]
      · show (Faa.pushLoop (q.heap.length + 1 + 1) q2 v).queue.retired = q.retired
        rw [hret, hret2]
      · show q.heap.length ≤ (Faa.pushLoop (q.heap.length + 1 + 1) q2 v).queue.heap.length
        omega
      · intro s hs
        exact Nat.le_trans (hmono2 s hs) (hmono s (by omega))
      · intro s hs
        rw [hpopeq s (by omega), hpopeq2 s hs]
      · intro e he
        simp only [List.mem_cons] at he
        rcases he with he | he
        · refine ⟨t, (Faa.geth q.heap t).push_idx, he, hInv.t_lt, Nat.le_refl _, ?_⟩
          have h1 : Faa.pushIdxAt q2 t ≤
              Faa.pushIdxAt (Faa.pushLoop (q.heap.length + 1 + 1) q2 v).queue t :=
            hmono t (by omega)
          show (Faa.geth q.heap t).push_idx <
            Faa.pushIdxAt (Faa.pushLoop (q.heap.length + 1 + 1) q2 v).queue t
          omega
        · rw [hevs, List.mem_singleton] at he
          refine ⟨t + 1, (Faa.geth q2.heap (t + 1)).push_idx, he, ht1L, ?_, ?_⟩
          · show Faa.pushIdxAt q (t + 1) ≤ _
            rw [show Faa.pushIdxAt q (t + 1) = (Faa.geth q.heap (t + 1)).push_idx from rfl]
            rw [← hkeep2]
          · rw [hexact]
            omega
      · simp only [List.nodup_cons]
        refine ⟨?_, by rw [hevs]; simp⟩
        rw [hevs]
        simp only [List.mem_singleton]
        intro hcon
        cases hcon
    · -- lag fix then a second extension
      obtain ⟨hdone, hInv', hlen, hchunks, hret, hevs, hmono, hpopeq, hexact, hfill, hlink⟩ :=
        Faa.push_case_extend q2 hp (t + 1) v hInv2 hlast2 hk2 (q.heap.length + 1)
      rw [heq']
      refine ⟨t + 1, hInv', hdone, ?_, ?_, ?_, ?_, ?_, ?_, ?_⟩
      · show Faa.liveChunks (Faa.pushLoop (q.heap.length + 1 + 1) q2 v).queue hp = _
        rw [hchunks, hchunks2]
      · show (Faa.pushLoop (q.heap.length + 1 + 1) q2 v).queue.retired = q.retired
        rw [hret, hret2]
      · show q.heap.length ≤ (Faa.pushLoop (q.heap.length + 1 + 1) q2 v).queue.heap.length
        omega
      · intro s hs
        exact Nat.le_trans (hmono2 s hs) (hmono s (by omega))
      · intro s hs
        rw [hpopeq s (by omega), hpopeq2 s hs]
      · intro e he
        simp only [List.mem_cons] at he
        rcases he with he | he
        · refine ⟨t, (Faa.geth q.heap t).push_idx, he, hInv.t_lt, Nat.le_refl _, ?_⟩
          have h1 : Faa.pushIdxAt q2 t ≤
              Faa.pushIdxAt (Faa.pushLoop (q.heap.length + 1 + 1) q2 v).queue t :=
            hmono t (by omega)
          show (Faa.geth q.heap t).push_idx <
            Faa.pushIdxAt (Faa.pushLoop (q.heap.length + 1 + 1) q2 v).queue t
          omega
        · rw [hevs, List.mem_singleton] at he
          refine ⟨t + 1, (Faa.geth q2.heap (t + 1)).push_idx, he, ht1L, ?_, ?_⟩
          · show Faa.pushIdxAt q (t + 1) ≤ _
            rw [show Faa.pushIdxAt q (t + 1) = (Faa.geth q.heap (t + 1)).push_idx from rfl]
            rw [← hkeep2]
          · rw [hexact]
            omega
      · simp only [List.nodup_cons]
        refine ⟨?_, by rw [hevs]; simp⟩
        rw [hevs]
        simp only [List.mem_singleton]
        intro hcon
        cases hcon

theorem Faa.pop_preserves {T : Type} (q : Faa.Queue T) (hp t : Nat)
    (hInv : Faa.InvAt q hp t) :
    ∃ hp',
      Faa.InvAt (Faa.pop q).queue hp' t ∧
      (Faa.pop q).queue.heap.length = q.heap.length ∧
      ((Faa.pop q).res = some none ∧
          Faa.liveChunks (Faa.pop q).queue hp' = Faa.liveChunks q hp ∨
        ∃ w rest, Faa.liveChunks q hp = w :: rest ∧ (Faa.pop q).res = some (some w) ∧
          Faa.liveChunks (Faa.pop q).queue hp' = rest) ∧
      (Faa.pop q).res.isSome = true ∧
      (∀ s, s < q.heap.length → Faa.pushIdxAt (Faa.pop q).queue s = Faa.pushIdxAt q s) ∧
      (∀ s, s < q.heap.length → Faa.popIdxAt q s ≤ Faa.popIdxAt (Faa.pop q).queue s) ∧
      (∀ e ∈ (Faa.pop q).evs, ∃ s i, e = Faa.Ev.popRes s i ∧ s < q.heap.length ∧
          Faa.popIdxAt q s ≤ i ∧ i < Faa.popIdxAt (Faa.pop q).queue s) ∧
      (Faa.pop q).evs.Nodup := by
  have hhl := hInv.h_lt
  rcases Nat.lt_or_ge (hp + 1) q.heap.length with hh1 | hh1
  · -- the head segment has a successor
    have hpn : (Faa.geth q.heap hp).pop_idx ≤ Faa.NODE_SIZE :=
      Nat.le_trans hInv.head_p (Nat.min_le_right _ _)
    rcases Nat.lt_or_eq_of_le hpn with hpN | hpN
    · -- in-range take
      obtain ⟨hres, hInv', hlen, hchunks, hret, hevs, hpusheq, hpopmono, hexact⟩ :=
        Faa.pop_case_take q hp t hInv hh1 hpN (q.heap.length + 2)
      have hres' : (Faa.pop q).res =
          some (some ((Faa.geth q.heap hp).elements (Faa.geth q.heap hp).pop_idx).inner) :=
        hres
      have hevs' : (Faa.pop q).evs = [Faa.Ev.popRes hp (Faa.geth q.heap hp).pop_idx] := hevs
      have hexact' : Faa.popIdxAt (Faa.pop q).queue hp =
          (Faa.geth q.heap hp).pop_idx + 1 := hexact
      refine ⟨hp, hInv', hlen, Or.inr ⟨_, _, hchunks, hres', rfl⟩, by rw [hres']; rfl,
        hpusheq, hpopmono, ?_, ?_⟩
      · intro e he
        rw [hevs', List.mem_singleton] at he
        refine ⟨hp, (Faa.geth q.heap hp).pop_idx, he, hhl, Nat.le_refl _, ?_⟩
        rw [hexact']
        omega
      · rw [hevs']
        simp
    · -- head segment drained: unlink, then act on the successor
      obtain ⟨q2, heq, hInv2, hlen2, hchunks2, hret2, hkeep2, hpusheq2, hpopmono2, hexact2⟩ :=
        Faa.pop_case_unlink q hp t hInv hh1 hpN (q.heap.length + 2)
      have heq' : Faa.pop q =
          { res := (Faa.popLoop (q.heap.length + 1 + 1) q2).res
            queue := (Faa.popLoop (q.heap.length + 1 + 1) q2).queue
            evs := Faa.Ev.popRes hp (Faa.geth q.heap hp).pop_idx ::
              (Faa.popLoop (q.heap.length + 1 + 1) q2).evs } := heq
      rcases Nat.lt_or_ge (hp + 2) q.heap.length with hh2 | hh2
      · -- the successor still has a successor: take from it
        have hpN2 : (Faa.geth q2.heap (hp + 1)).pop_idx < Faa.NODE_SIZE := by
          have hz : (Faa.geth q.heap (hp + 1)).pop_idx = 0 :=
            hInv.pop_zero (hp + 1) (by omega) hh1
          have := hkeep2
          simp only [Faa.popIdxAt] at this
          rw [this, hz]
          show 0 < Faa.NODE_SIZE
          decide
        obtain ⟨hres, hInv', hlen, hchunks, hret, hevs, hpusheq, hpopmono, hexact⟩ :=
          Faa.pop_case_take q2 (hp + 1) t hInv2 (by omega) hpN2 (q.heap.length + 1)
        rw [heq']
        refine ⟨hp + 1, hInv', by rw [show (Faa.popLoop (q.heap.length + 1 + 1) q2).queue.heap.length = q2.heap.length from hlen]; omega,
          Or.inr ⟨((Faa.geth q2.heap (hp + 1)).elements (Faa.geth q2.heap (hp + 1)).pop_idx).inner,
            Faa.liveChunks (Faa.popLoop (q.heap.length + 1 + 1) q2).queue (hp + 1),
            ?_, ?_, rfl⟩, ?_, ?_, ?_, ?_, ?_⟩
        · rw [← hchunks2]
          exact hchunks
        · exact hres
        · rw [show (Faa.popLoop (q.heap.length + 1 + 1) q2).res =
            some (some ((Faa.geth q2.heap (hp + 1)).elements
              (Faa.geth q2.heap (hp + 1)).pop_idx).inner) from hres]
          rfl
        · intro s hs
          rw [show Faa.pushIdxAt (Faa.popLoop (q.heap.length + 1 + 1) q2).queue s =
            Faa.pushIdxAt q2 s from hpusheq s (by omega)]
          exact hpusheq2 s hs
        · intro s hs
          exact Nat.le_trans (hpopmono2 s hs) (hpopmono s (by omega))
        · intro e he
          simp only [List.mem_cons] at he
          rcases he with he | he
          · refine ⟨hp, (Faa.geth q.heap hp).pop_idx, he, hhl, Nat.le_refl _, ?_⟩
            have h1 : Faa.popIdxAt q2 hp ≤
                Faa.popIdxAt (Faa.popLoop (q.heap.length + 1 + 1) q2).queue hp :=
              hpopmono hp (by omega)
            show (Faa.geth q.heap hp).pop_idx <
              Faa.popIdxAt (Faa.popLoop (q.heap.length + 1 + 1) q2).queue hp
            omega
          · rw [show (Faa.popLoop (q.heap.length + 1 + 1) q2).evs =
              [Faa.Ev.popRes (hp + 1) (Faa.geth q2.heap (hp + 1)).pop_idx] from hevs,
              List.mem_singleton] at he
            refine ⟨hp + 1, (Faa.geth q2.heap (hp + 1)).pop_idx, he, by omega, ?_, ?_⟩
            · show Faa.popIdxAt q (hp + 1) ≤ _
              rw [show (Faa.geth q2.heap (hp + 1)).pop_idx = Faa.popIdxAt q2 (hp + 1) from rfl]
              rw [hkeep2]
            · rw [show Faa.popIdxAt (Faa.popLoop (q.heap.length + 1 + 1) q2).queue (hp + 1) =
                (Faa.geth q2.heap (hp + 1)).pop_idx + 1 from hexact]
              omega
        · simp only [List.nodup_cons]
          refine ⟨?_, by rw [show (Faa.popLoop (q.heap.length + 1 + 1) q2).evs =
            [Faa.Ev.popRes (hp + 1) (Faa.geth q2.heap (hp + 1)).pop_idx] from hevs]; simp⟩
          rw [show (Faa.popLoop (q.heap.length + 1 + 1) q2).evs =
            [Faa.Ev.popRes (hp + 1) (Faa.geth q2.heap (hp + 1)).pop_idx] from hevs]
          simp only [List.mem_singleton]
          intro hcon
          cases hcon
      · -- the successor is the last segment: the pop reports empty
        have hL2 : (hp + 1) + 1 = q2.heap.length := by omega
        have hempty := Faa.pop_case_empty q2 (hp + 1) t hInv2 hL2 (q.heap.length + 1)
        have hempty' : Faa.popLoop (q.heap.length + 1 + 1) q2 =
            { res := some none, queue := q2, evs := [] } := hempty
        rw [heq', hempty']
        refine ⟨hp + 1, hInv2, by simpa using hlen2, Or.inl ⟨rfl, hchunks2⟩, rfl,
          hpusheq2, hpopmono2, ?_, by simp⟩
        intro e he
        simp only [List.mem_cons, List.not_mem_nil, or_false] at he
        refine ⟨hp, (Faa.geth q.heap hp).pop_idx, he, hhl, Nat.le_refl _, ?_⟩
        rw [show Faa.popIdxAt q2 hp = (Faa.geth q.heap hp).pop_idx + 1 from hexact2]
        omega
  · -- the head segment is the last one: pop reports empty without changes
    have hL : hp + 1 = q.heap.length := by omega
    have hempty := Faa.pop_case_empty q hp t hInv hL (q.heap.length + 2)
    have hempty' : Faa.pop q = { res := some none, queue := q, evs := [] } := hempty
    rw [hempty']
    exact ⟨hp, hInv, rfl, Or.inl ⟨rfl, rfl⟩, rfl, fun s _ => rfl, fun s _ => Nat.le_refl _,
      by intro e he; simp at he, by simp⟩

theorem Faa.dropChain_none {T : Type} (fuel : Nat) (heap : List (Faa.Node T)) :
    Faa.dropChain fuel heap none = [] := by
  cases fuel <;> rfl

theorem Faa.dropChain_of_inv {T : Type} (q : Faa.Queue T) (hp t : Nat)
    (hInv : Faa.InvAt q hp t) :
    ∀ (fuel i : Nat), i < q.heap.length → q.heap.length - i ≤ fuel →
      Faa.dropChain fuel q.heap (some i) =
        ((List.range' i (q.heap.length - i)).map
          (fun j => Faa.nodeDropDestructs (Faa.geth q.heap j))).flatten := by
  intro fuel
  induction fuel with
  | zero => intro i hi hf; omega
  | succ fuel ih =>
    intro i hi hf
    simp only [Faa.dropChain]
    rcases Nat.lt_or_ge (i + 1) q.heap.length with hi1 | hi1
    · rw [hInv.chain i hi1]
      rw [ih (i + 1) hi1 (by omega)]
      have hr : q.heap.length - i = (q.heap.length - (i + 1)) + 1 := by omega
      rw [hr]
      have hsucc := List.range'_succ i (q.heap.length - (i + 1)) 1
      simp only [Nat.one_mul] at hsucc
      rw [hsucc]
      simp
    · have hlast : i = q.heap.length - 1 := by omega
      have hnext : (Faa.geth q.heap i).next = none := by
        rw [hlast]; exact hInv.last_next
      rw [hnext, Faa.dropChain_none]
      have hr : q.heap.length - i = 1 := by omega
      rw [hr]
      simp

theorem Faa.queueDrop_of_inv {T : Type} (q : Faa.Queue T) (hp t : Nat)
    (hInv : Faa.InvAt q hp t) :
    Faa.queueDropDestructs q = Faa.liveChunks q hp := by
  simp only [Faa.queueDropDestructs, hInv.head_eq]
  rw [Faa.dropChain_of_inv q hp t hInv (q.heap.length + 1) hp hInv.h_lt (by omega)]
  rfl

theorem Faa.liveChunks_new {T : Type} : Faa.liveChunks (Faa.Queue.new (T := T)) 0 = [] := by
  rfl

theorem Faa.returnedVals_cons_none {T : Type} (outs : List (Option (Option (Option T)))) :
    Faa.returnedVals (some none :: outs) = Faa.returnedVals outs := rfl

theorem Faa.returnedVals_cons_some {T : Type} (w : Option T)
    (outs : List (Option (Option (Option T)))) :
    Faa.returnedVals (some (some w) :: outs) = w :: Faa.returnedVals outs := rfl

theorem Faa.runOps_spec {T : Type} :
    ∀ (ops : List (QOp T)) (q : Faa.Queue T) (hp t : Nat) (pend : List (Option T)),
      Faa.InvAt q hp t → Faa.liveChunks q hp = pend →
      ∃ hp' t',
        Faa.InvAt (Faa.runOps ops q).1 hp' t' ∧
        (Faa.runOps ops q).2.2 = true ∧
        ∃ k, Faa.returnedVals (Faa.runOps ops q).2.1 =
            (pend ++ (pushedVals ops).map some).take k ∧
          Faa.liveChunks (Faa.runOps ops q).1 hp' =
            (pend ++ (pushedVals ops).map some).drop k := by
  intro ops
  induction ops with
  | nil =>
    intro q hp t pend hInv hpend
    refine ⟨hp, t, hInv, rfl, 0, rfl, ?_⟩
    simpa [pushedVals] using hpend
  | cons op rest ih =>
    intro q hp t pend hInv hpend
    cases op with
    | push v =>
      obtain ⟨t', hInv', hdone, hchunks, -, -, -, -, -, -⟩ :=
        Faa.push_preserves q hp t v hInv
      obtain ⟨hp2, t2, hInv2, hflag, k, hret, hlive⟩ :=
        ih (Faa.push q v).queue hp t' (pend ++ [some v]) hInv' (by rw [hchunks, hpend])
      refine ⟨hp2, t2, hInv2, ?_, k, ?_, ?_⟩
      · show ((Faa.push q v).done && (Faa.runOps rest (Faa.push q v).queue).2.2) = true
        rw [hdone, hflag]
        rfl
      · show Faa.returnedVals (Faa.runOps rest (Faa.push q v).queue).2.1 = _
        rw [hret]
        simp [pushedVals, List.append_assoc]
      · show Faa.liveChunks (Faa.runOps rest (Faa.push q v).queue).1 hp2 = _
        rw [hlive]
        simp [pushedVals, List.append_assoc]
    | pop =>
      obtain ⟨hp', hInv', hlen, hdisj, hsome, -, -, -, -⟩ := Faa.pop_preserves q hp t hInv
      rcases hdisj with ⟨hres, hkeep⟩ | ⟨w, pend', hsplit, hres, hkeep⟩
      · -- pop reported empty
        obtain ⟨hp2, t2, hInv2, hflag, k, hret, hlive⟩ :=
          ih (Faa.pop q).queue hp' t pend hInv' (by rw [hkeep, hpend])
        refine ⟨hp2, t2, hInv2, ?_, k, ?_, ?_⟩
        · show ((Faa.pop q).res.isSome && (Faa.runOps rest (Faa.pop q).queue).2.2) = true
          rw [hsome, hflag]
          rfl
        · show Faa.returnedVals ((Faa.pop q).res :: (Faa.runOps rest (Faa.pop q).queue).2.1) = _
          rw [hres, Faa.returnedVals_cons_none]
          rw [hret]
          rfl
        · show Faa.liveChunks (Faa.runOps rest (Faa.pop q).queue).1 hp2 = _
          rw [hlive]
          rfl
      · -- pop returned the front pending element
        rw [hpend] at hsplit
        subst hsplit
        obtain ⟨hp2, t2, hInv2, hflag, k, hret, hlive⟩ :=
          ih (Faa.pop q).queue hp' t pend' hInv' hkeep
        refine ⟨hp2, t2, hInv2, ?_, k + 1, ?_, ?_⟩
        · show ((Faa.pop q).res.isSome && (Faa.runOps rest (Faa.pop q).queue).2.2) = true
          rw [hsome, hflag]
          rfl
        · show Faa.returnedVals ((Faa.pop q).res :: (Faa.runOps rest (Faa.pop q).queue).2.1) = _
          rw [hres, Faa.returnedVals_cons_some, hret]
          rfl
        · show Faa.liveChunks (Faa.runOps rest (Faa.pop q).queue).1 hp2 = _
          rw [hlive]
          rfl

theorem Ms.lastAddr_cons {T : Type} (h a : Nat) (v : T) (rest : List (Nat × T)) :
    Ms.lastAddr h ((a, v) :: rest) = Ms.lastAddr a rest := rfl

theorem Ms.lastAddr_snoc {T : Type} (h L : Nat) (v : T) (as : List (Nat × T)) :
    Ms.lastAddr h (as ++ [(L, v)]) = L := by
  simp [Ms.lastAddr, List.foldl_append]

theorem Ms.le_lastAddr {T : Type} (heap : List (Ms.Node T)) :
    ∀ (as : List (Nat × T)) (h : Nat), Ms.chainOk heap h as → h ≤ Ms.lastAddr h as := by
  intro as
  induction as with
  | nil => intro h _; exact Nat.le_refl h
  | cons p rest ih =>
    intro h hc
    obtain ⟨a, v⟩ := p
    simp only [Ms.chainOk] at hc
    rw [Ms.lastAddr_cons]
    exact Nat.le_trans (Nat.le_of_lt hc.2.2.1) (ih a hc.2.2.2.2)

theorem Ms.lastAddr_lt {T : Type} (heap : List (Ms.Node T)) :
    ∀ (as : List (Nat × T)) (h : Nat), Ms.chainOk heap h as → h < heap.length →
      Ms.lastAddr h as < heap.length := by
  intro as
  induction as with
  | nil => intro h _ hlt; exact hlt
  | cons p rest ih =>
    intro h hc _
    obtain ⟨a, v⟩ := p
    simp only [Ms.chainOk] at hc
    rw [Ms.lastAddr_cons]
    exact ih a hc.2.2.2.2 hc.2.2.2.1

theorem Ms.chainOk_last_next {T : Type} (heap : List (Ms.Node T)) :
    ∀ (as : List (Nat × T)) (h : Nat), Ms.chainOk heap h as →
      (Ms.geth heap (Ms.lastAddr h as)).next = none := by
  intro as
  induction as with
  | nil => intro h hc; exact hc
  | cons p rest ih =>
    intro h hc
    obtain ⟨a, v⟩ := p
    simp only [Ms.chainOk] at hc
    rw [Ms.lastAddr_cons]
    exact ih a hc.2.2.2.2

theorem Ms.chainOk_append {T : Type} (heap ext : List (Ms.Node T)) :
    ∀ (as : List (Nat × T)) (h : Nat), Ms.chainOk heap h as → h < heap.length →
      Ms.chainOk (heap ++ ext) h as := by
  intro as
  induction as with
  | nil =>
    intro h hc hlt
    simp only [Ms.chainOk] at hc ⊢
    rw [Ms.geth_append_lt_ms heap ext h hlt]
    exact hc
  | cons p rest ih =>
    intro h hc hlt
    obtain ⟨a, v⟩ := p
    simp only [Ms.chainOk] at hc ⊢
    obtain ⟨h1, h2, h3, h4, h5⟩ := hc
    refine ⟨?_, ?_, h3, ?_, ih a h5 h4⟩
    · rw [Ms.geth_append_lt_ms heap ext h hlt]; exact h1
    · rw [Ms.geth_append_lt_ms heap ext a h4]; exact h2
    · calc a < heap.length := h4
        _ ≤ (heap ++ ext).length := by simp

theorem Ms.chainOk_set_last {T : Type} (heap : List (Ms.Node T)) (L : Nat) (v : T)
    (hLe : (Ms.geth heap L).elem = some v) (hLn : (Ms.geth heap L).next = none)
    (hLlt : L < heap.length) :
    ∀ (as : List (Nat × T)) (h : Nat), Ms.chainOk heap h as → h < heap.length →
      Ms.lastAddr h as < L →
      Ms.chainOk (heap.set (Ms.lastAddr h as)
        { Ms.geth heap (Ms.lastAddr h as) with next := some L }) h (as ++ [(L, v)]) := by
  intro as
  induction as with
  | nil =>
    intro h hc hlt hlast
    simp only [Ms.lastAddr, List.foldl_nil] at hlast ⊢
    simp only [List.nil_append, Ms.chainOk]
    have hne : h ≠ L := Nat.ne_of_lt hlast
    refine ⟨?_, ?_, hlast, ?_, ?_⟩
    · rw [Ms.geth_set_self_ms heap h _ hlt]
    · rw [Ms.geth_set_ne_ms heap h L _ hne]; exact hLe
    · rw [List.length_set]; exact hLlt
    · show Ms.chainOk _ L []
      simp only [Ms.chainOk]
      rw [Ms.geth_set_ne_ms heap h L _ hne]; exact hLn
  | cons p rest ih =>
    intro h hc hlt hlast
    obtain ⟨a, w⟩ := p
    simp only [Ms.chainOk] at hc
    obtain ⟨h1, h2, h3, h4, h5⟩ := hc
    rw [Ms.lastAddr_cons] at hlast ⊢
    have hat : a ≤ Ms.lastAddr a rest := Ms.le_lastAddr heap rest a h5
    have hht : h ≠ Ms.lastAddr a rest := Nat.ne_of_lt (Nat.lt_of_lt_of_le h3 hat)
    simp only [List.cons_append, Ms.chainOk]
    refine ⟨?_, ?_, h3, ?_, ?_⟩
    · rw [Ms.geth_set_ne_ms heap _ h _ (fun e => hht e.symm)]; exact h1
    · by_cases hae : a = Ms.lastAddr a rest
      · rw [← hae, Ms.geth_set_self_ms heap a _ h4]
        rw [hae] at h2 ⊢
        exact h2
      · rw [Ms.geth_set_ne_ms heap _ a _ (fun e => hae e.symm)]; exact h2
    · simp [h4]
    · exact ih a h5 h4 hlast

theorem Ms.popIter_recheck_fail {T : Type} (heap : List (Ms.Node T))
    (hObs tObs headRecheck headCas : Nat) (h : headRecheck ≠ hObs) :
    Ms.popIter heap hObs tObs headRecheck headCas = (Ms.PopStep.retryPlain, []) := by
  simp [Ms.popIter, h]

theorem Ms.popIter_empty {T : Type} (heap : List (Ms.Node T)) (hObs tObs headRecheck headCas : Nat)
    (h1 : headRecheck = hObs) (h2 : hObs = tObs) (hnx : (Ms.geth heap hObs).next = none) :
    Ms.popIter heap hObs tObs headRecheck headCas = (Ms.PopStep.empty, []) := by
  subst h1
  subst h2
  simp [Ms.popIter, hnx]

theorem Ms.popIter_swing {T : Type} (heap : List (Ms.Node T))
    (hObs tObs headRecheck headCas nx : Nat)
    (h1 : headRecheck = hObs) (h2 : hObs = tObs) (hnx : (Ms.geth heap hObs).next = some nx) :
    Ms.popIter heap hObs tObs headRecheck headCas = (Ms.PopStep.retrySwing tObs nx, []) := by
  subst h1
  subst h2
  simp [Ms.popIter, hnx]

theorem Ms.popIter_stuck {T : Type} (heap : List (Ms.Node T)) (hObs tObs headRecheck headCas : Nat)
    (h1 : headRecheck = hObs) (h2 : hObs ≠ tObs) (hnx : (Ms.geth heap hObs).next = none) :
    Ms.popIter heap hObs tObs headRecheck headCas = (Ms.PopStep.stuck, []) := by
  simp [Ms.popIter, h1, h2, hnx]

theorem Ms.popIter_popped {T : Type} (heap : List (Ms.Node T))
    (hObs tObs headRecheck headCas nx : Nat)
    (h1 : headRecheck = hObs) (h2 : hObs ≠ tObs) (hnx : (Ms.geth heap hObs).next = some nx)
    (h3 : headCas = hObs) :
    Ms.popIter heap hObs tObs headRecheck headCas =
      (Ms.PopStep.popped (Ms.geth heap nx).elem nx hObs, []) := by
  simp [Ms.popIter, h1, h2, hnx, h3]

theorem Ms.popIter_cas_fail {T : Type} (heap : List (Ms.Node T))
    (hObs tObs headRecheck headCas nx : Nat)
    (h1 : headRecheck = hObs) (h2 : hObs ≠ tObs) (hnx : (Ms.geth heap hObs).next = some nx)
    (h3 : headCas ≠ hObs) :
    Ms.popIter heap hObs tObs headRecheck headCas = (Ms.PopStep.retryPlain, []) := by
  simp [Ms.popIter, h1, h2, hnx, h3]

theorem Ms.pushLoop_link {T : Type} (fuel : Nat) (q : Ms.Queue T) (node t : Nat)
    (ht : q.tail = some t) (hn : (Ms.geth q.heap t).next = none) :
    Ms.pushLoop (fuel + 1) q node =
      (true, { q with heap := q.heap.set t { Ms.geth q.heap t with next := some node } }, t) := by
  simp [Ms.pushLoop, ht, hn]

theorem Ms.Inv_new {T : Type} : Ms.Inv (Ms.Queue.new (T := T)) [] := by
  refine ⟨0, [], rfl, by simp [Ms.Queue.new], ?_, rfl, rfl⟩
  show (Ms.geth (Ms.Queue.new (T := T)).heap 0).next = none
  rfl

theorem Ms.push_preserves_ms {T : Type} (q : Ms.Queue T) (vs : List T) (v : T)
    (hInv : Ms.Inv q vs) :
    (Ms.push q v).1 = true ∧ Ms.Inv (Ms.push q v).2 (vs ++ [v]) := by
  obtain ⟨h, as, hhd, hlt, hchain, htl, hsnd⟩ := hInv
  have htlt : Ms.lastAddr h as < q.heap.length := Ms.lastAddr_lt q.heap as h hchain hlt
  have hchain1 : Ms.chainOk (q.heap ++ [Ms.Node.new v]) h as :=
    Ms.chainOk_append q.heap [Ms.Node.new v] as h hchain hlt
  have hnext1 : (Ms.geth (q.heap ++ [Ms.Node.new v]) (Ms.lastAddr h as)).next = none := by
    rw [Ms.geth_append_lt_ms q.heap _ _ htlt]
    exact Ms.chainOk_last_next q.heap as h hchain
  have hq1 :
      ({ q with heap := q.heap ++ [Ms.Node.new v] } : Ms.Queue T).tail =
        some (Ms.lastAddr h as) := htl
  have hloop := Ms.pushLoop_link (q.heap ++ [Ms.Node.new v]).length
    ({ q with heap := q.heap ++ [Ms.Node.new v] } : Ms.Queue T) q.heap.length
    (Ms.lastAddr h as) hq1 hnext1
  have hpush : Ms.push q v =
      (true,
        { q with
            heap := (q.heap ++ [Ms.Node.new v]).set (Ms.lastAddr h as)
              { Ms.geth (q.heap ++ [Ms.Node.new v]) (Ms.lastAddr h as) with
                  next := some q.heap.length },
            tail := some q.heap.length }) := by
    show Ms.push q v = _
    simp only [List.length_append, List.length_cons, List.length_nil] at hloop
    simp only [Ms.push, List.length_append, List.length_cons, List.length_nil]
    rw [hloop]
    simp [htl]
  rw [hpush]
  refine ⟨rfl, h, as ++ [(q.heap.length, v)], hhd, ?_, ?_, ?_, ?_⟩
  · simp
    calc h < q.heap.length := hlt
      _ ≤ q.heap.length + 1 := Nat.le_succ _
  · exact Ms.chainOk_set_last (q.heap ++ [Ms.Node.new v]) q.heap.length v
      (by rw [Ms.geth_append_len_ms]; rfl) (by rw [Ms.geth_append_len_ms]; rfl)
      (by simp) as h hchain1 (by simp; omega) htlt
  · rw [Ms.lastAddr_snoc]
  · simp [hsnd]

theorem Ms.popLoop_nil {T : Type} (fuel : Nat) (q : Ms.Queue T) (h : Nat)
    (hh : q.head = some h) (ht : q.tail = some h) (hn : (Ms.geth q.heap h).next = none) :
    Ms.popLoop (fuel + 1) q = (some none, q) := by
  simp [Ms.popLoop, hh, ht, Ms.popIter_empty q.heap h h h h rfl rfl hn]

theorem Ms.pop_nil {T : Type} (q : Ms.Queue T) (hInv : Ms.Inv q []) :
    Ms.pop q = (some none, q) := by
  obtain ⟨h, as, hhd, hlt, hchain, htl, hsnd⟩ := hInv
  have has : as = [] := by
    cases as with
    | nil => rfl
    | cons p r => simp at hsnd
  subst has
  exact Ms.popLoop_nil q.heap.length q h hhd htl hchain

theorem Ms.pop_cons {T : Type} (q : Ms.Queue T) (v : T) (vs : List T)
    (hInv : Ms.Inv q (v :: vs)) :
    (Ms.pop q).1 = some (some v) ∧ Ms.Inv (Ms.pop q).2 vs := by
  obtain ⟨h, as, hhd, hlt, hchain, htl, hsnd⟩ := hInv
  cases as with
  | nil => simp at hsnd
  | cons p rest =>
    obtain ⟨a, w⟩ := p
    simp only [List.map_cons, List.cons.injEq] at hsnd
    obtain ⟨rfl, hsnd⟩ := hsnd
    simp only [Ms.chainOk] at hchain
    obtain ⟨h1, h2, h3, h4, h5⟩ := hchain
    have hat : a ≤ Ms.lastAddr a rest := Ms.le_lastAddr q.heap rest a h5
    have hht : h ≠ Ms.lastAddr a rest := Nat.ne_of_lt (Nat.lt_of_lt_of_le h3 hat)
    rw [Ms.lastAddr_cons] at htl
    have hiter := Ms.popIter_popped q.heap h (Ms.lastAddr a rest) h h a rfl hht h1 rfl
    have hpop : Ms.pop q =
        (some (some w), { q with head := some a, retired := q.retired ++ [h] }) := by
      show Ms.popLoop (q.heap.length + 1) q = _
      simp [Ms.popLoop, hhd, htl, hiter, h2, Ms.applyStep]
    rw [hpop]
    exact ⟨rfl, a, rest, rfl, h4, h5, htl, hsnd⟩

theorem specStep_acc {T : Type} :
    ∀ (ops : List (QOp T)) (vs : List T) (outs : List (Option T)),
      (ops.foldl specStep (vs, outs)).1 = (ops.foldl specStep (vs, [])).1 ∧
      (ops.foldl specStep (vs, outs)).2 = outs ++ (ops.foldl specStep (vs, [])).2 := by
  intro ops
  induction ops with
  | nil => intro vs outs; simp
  | cons op rest ih =>
    intro vs outs
    cases op with
    | push v =>
      simp only [List.foldl_cons, specStep]
      exact ih (vs ++ [v]) outs
    | pop =>
      cases vs with
      | nil =>
        simp only [List.foldl_cons, specStep, List.nil_append]
        have h1 := ih [] (outs ++ [none])
        have h2 := ih [] [none]
        refine ⟨by rw [h1.1, h2.1], ?_⟩
        rw [h1.2, h2.2, List.append_assoc]
      | cons v r =>
        simp only [List.foldl_cons, specStep, List.nil_append]
        have h1 := ih r (outs ++ [some v])
        have h2 := ih r [some v]
        refine ⟨by rw [h1.1, h2.1], ?_⟩
        rw [h1.2, h2.2, List.append_assoc]

theorem Ms.runOps_spec_ms {T : Type} :
    ∀ (ops : List (QOp T)) (q : Ms.Queue T) (vs : List T), Ms.Inv q vs →
      (Ms.runOps ops q).2.2 = true ∧
      Ms.Inv (Ms.runOps ops q).1 (ops.foldl specStep (vs, [])).1 ∧
      (Ms.runOps ops q).2.1 = ((ops.foldl specStep (vs, [])).2).map some := by
  intro ops
  induction ops with
  | nil => intro q vs hInv; exact ⟨rfl, hInv, rfl⟩
  | cons op rest ih =>
    intro q vs hInv
    cases op with
    | push v =>
      have hp := Ms.push_preserves_ms q vs v hInv
      have hr := ih (Ms.push q v).2 (vs ++ [v]) hp.2
      simp only [Ms.runOps, List.foldl_cons, specStep]
      exact ⟨by rw [hp.1, hr.1]; rfl, hr.2.1, hr.2.2⟩
    | pop =>
      cases vs with
      | nil =>
        have hpe := Ms.pop_nil q hInv
        have hr := ih q [] hInv
        simp only [Ms.runOps, List.foldl_cons, specStep, hpe, List.nil_append]
        have hacc := specStep_acc rest ([] : List T) [none]
        refine ⟨by rw [hr.1]; rfl, ?_, ?_⟩
        · rw [hacc.1]; exact hr.2.1
        · rw [hacc.2, hr.2.2]; simp
      | cons v vr =>
        have hpc := Ms.pop_cons q v vr hInv
        have hr := ih (Ms.pop q).2 vr hpc.2
        have hacc := specStep_acc rest vr [some v]
        simp only [Ms.runOps, List.foldl_cons, specStep, List.nil_append]
        refine ⟨?_, ?_, ?_⟩
        · rw [hpc.1, hr.1]; rfl
        · rw [hacc.1]; exact hr.2.1
        · rw [hacc.2, hpc.1, hr.2.2]; simp

theorem Ms.dropChain_spec {T : Type} (heap : List (Ms.Node T)) :
    ∀ (as : List (Nat × T)) (h fuel : Nat), Ms.chainOk heap h as → h < heap.length →
      heap.length - h ≤ fuel →
      Ms.dropChain fuel heap ((Ms.geth heap h).next) = as.map (fun p => some p.2) := by
  intro as
  induction as with
  | nil =>
    intro h fuel hc hlt hf
    rw [hc]
    cases fuel with
    | zero => omega
    | succ f => rfl
  | cons p rest ih =>
    intro h fuel hc hlt hf
    obtain ⟨a, v⟩ := p
    simp only [Ms.chainOk] at hc
    obtain ⟨h1, h2, h3, h4, h5⟩ := hc
    rw [h1]
    cases fuel with
    | zero => omega
    | succ f =>
      simp only [Ms.dropChain]
      rw [h2, ih a f h5 h4 (by omega)]
      simp

theorem Ms.drop_of_Inv {T : Type} (q : Ms.Queue T) (vs : List T) (hInv : Ms.Inv q vs) :
    Ms.queueDropDestructs q = vs.map some := by
  obtain ⟨h, as, hhd, hlt, hchain, htl, hsnd⟩ := hInv
  simp only [Ms.queueDropDestructs, hhd]
  rw [Ms.dropChain_spec q.heap as h (q.heap.length + 1) hchain hlt (by omega)]
  rw [← hsnd, List.map_map]
  rfl

theorem spec_pushes {T : Type} :
    ∀ (vs vs0 : List T),
      List.foldl specStep (vs0, ([] : List (Option T))) (vs.map QOp.push) = (vs0 ++ vs, []) := by
  intro vs
  induction vs with
  | nil => intro vs0; simp
  | cons v r ih =>
    intro vs0
    simp only [List.map_cons, List.foldl_cons, specStep]
    rw [ih (vs0 ++ [v])]
    simp

theorem spec_pops {T : Type} :
    ∀ (vs : List T),
      (List.foldl specStep (vs, ([] : List (Option T)))
          (List.replicate (vs.length + 1) QOp.pop)).2 =
        vs.map some ++ [none] := by
  intro vs
  induction vs with
  | nil => rfl
  | cons v r ih =>
    show (List.foldl specStep (v :: r, []) (List.replicate (r.length + 1 + 1) QOp.pop)).2 = _
    rw [List.replicate_succ]
    simp only [List.foldl_cons, specStep, List.nil_append]
    have hacc := specStep_acc (List.replicate (r.length + 1) (QOp.pop (T := T))) r [some v]
    rw [hacc.2, ih]
    simp

/-- Claim C4: for the pointer (Michael-Scott) queue, single-threaded, for
every N in {0, 1, 1025, 4096} and every sequence of N values, pushing the
N values and then popping N+1 times returns exactly those values in push
order followed by one empty pop, with every operation completing. -/
theorem claim_C4_ms_round_trip {T : Type} (vs : List T)
    (hN : vs.length = 0 ∨ vs.length = 1 ∨ vs.length = 1025 ∨ vs.length = 4096) :
    (Ms.runOps (vs.map QOp.push ++ List.replicate (vs.length + 1) QOp.pop)
        (Ms.Queue.new (T := T))).2.1 =
      vs.map (fun v => some (some v)) ++ [some none] ∧
    (Ms.runOps (vs.map QOp.push ++ List.replicate (vs.length + 1) QOp.pop)
        (Ms.Queue.new (T := T))).2.2 = true := by
  have h := Ms.runOps_spec_ms (vs.map QOp.push ++ List.replicate (vs.length + 1) QOp.pop)
    Ms.Queue.new [] Ms.Inv_new
  refine ⟨?_, h.1⟩
  rw [h.2.2, List.foldl_append, spec_pushes vs []]
  show (List.foldl specStep (vs, []) _).2.map some = _
  rw [spec_pops vs]
  simp

/-- Witness for C4 at the concrete one-element sequence `[3]`. -/
theorem claim_C4_witness :
    (([3] : List Nat).length = 0 ∨ ([3] : List Nat).length = 1 ∨
      ([3] : List Nat).length = 1025 ∨ ([3] : List Nat).length = 4096) ∧
    ((Ms.runOps (([3] : List Nat).map QOp.push ++
          List.replicate (([3] : List Nat).length + 1) QOp.pop)
        (Ms.Queue.new (T := Nat))).2.1 =
      ([3] : List Nat).map (fun v => some (some v)) ++ [some none] ∧
    (Ms.runOps (([3] : List Nat).map QOp.push ++
          List.replicate (([3] : List Nat).length + 1) QOp.pop)
        (Ms.Queue.new (T := Nat))).2.2 = true) :=
  ⟨Or.inr (Or.inl (by decide)),
    claim_C4_ms_round_trip ([3] : List Nat) (Or.inr (Or.inl (by decide)))⟩

/-- Claim C5: a successful pop iteration returns the element stored in
the node that `head.next` points to — never the head/sentinel node's own
element — and retires exactly the old head node the CAS replaced; an
iteration whose head-CAS fails leaves the queue state unchanged and
performs no destructor invocation (the tentatively read value is
discarded undropped). -/
theorem claim_C5_pop_reads_next_and_failed_cas_is_noop {T : Type} (q : Ms.Queue T)
    (heap : List (Ms.Node T)) (hObs tObs headRecheck headCas : Nat) :
    (∀ res nh ra,
        (Ms.popIter heap hObs tObs headRecheck headCas).1 = Ms.PopStep.popped res nh ra →
        (Ms.geth heap hObs).next = some nh ∧ res = (Ms.geth heap nh).elem ∧ ra = hObs) ∧
    (headRecheck = hObs → hObs ≠ tObs → headCas ≠ hObs →
        (Ms.geth heap hObs).next ≠ none →
        (Ms.popIter heap hObs tObs headRecheck headCas).1 = Ms.PopStep.retryPlain ∧
          Ms.applyStep q Ms.PopStep.retryPlain = q) ∧
    (Ms.popIter heap hObs tObs headRecheck headCas).2 = [] := by
  refine ⟨?_, ?_, ?_⟩
  · intro res nh ra hstep
    by_cases h1 : headRecheck = hObs
    · by_cases h2 : hObs = tObs
      · cases hnx : (Ms.geth heap hObs).next with
        | none => rw [Ms.popIter_empty heap hObs tObs headRecheck headCas h1 h2 hnx] at hstep
                  cases hstep
        | some nx => rw [Ms.popIter_swing heap hObs tObs headRecheck headCas nx h1 h2 hnx] at hstep
                     cases hstep
      · cases hnx : (Ms.geth heap hObs).next with
        | none => rw [Ms.popIter_stuck heap hObs tObs headRecheck headCas h1 h2 hnx] at hstep
                  cases hstep
        | some nx =>
          by_cases h3 : headCas = hObs
          · rw [Ms.popIter_popped heap hObs tObs headRecheck headCas nx h1 h2 hnx h3] at hstep
            injection hstep with e1 e2 e3
            subst e1
            subst e2
            subst e3
            exact ⟨rfl, rfl, rfl⟩
          · rw [Ms.popIter_cas_fail heap hObs tObs headRecheck headCas nx h1 h2 hnx h3] at hstep
            cases hstep
    · rw [Ms.popIter_recheck_fail heap hObs tObs headRecheck headCas h1] at hstep
      cases hstep
  · intro h1 h2 h3 hne
    cases hnx : (Ms.geth heap hObs).next with
    | none => exact absurd hnx hne
    | some nx =>
      rw [Ms.popIter_cas_fail heap hObs tObs headRecheck headCas nx h1 h2 hnx h3]
      exact ⟨rfl, rfl⟩
  · by_cases h1 : headRecheck = hObs
    · by_cases h2 : hObs = tObs
      · cases hnx : (Ms.geth heap hObs).next with
        | none => rw [Ms.popIter_empty heap hObs tObs headRecheck headCas h1 h2 hnx]
        | some nx => rw [Ms.popIter_swing heap hObs tObs headRecheck headCas nx h1 h2 hnx]
      · cases hnx : (Ms.geth heap hObs).next with
        | none => rw [Ms.popIter_stuck heap hObs tObs headRecheck headCas h1 h2 hnx]
        | some nx =>
          by_cases h3 : headCas = hObs
          · rw [Ms.popIter_popped heap hObs tObs headRecheck headCas nx h1 h2 hnx h3]
          · rw [Ms.popIter_cas_fail heap hObs tObs headRecheck headCas nx h1 h2 hnx h3]
    · rw [Ms.popIter_recheck_fail heap hObs tObs headRecheck headCas h1]

/-- Witness for C5 at concrete inputs: a successful CAS iteration on a
two-node heap, and a failed-CAS iteration on the same heap. -/
theorem claim_C5_witness :
    ((Ms.geth c5WitnessHeap 0).next = some 1 ∧
      (some 7 : Option Nat) = (Ms.geth c5WitnessHeap 1).elem ∧ (0 : Nat) = 0) ∧
    ((Ms.popIter c5WitnessHeap 0 5 0 3).1 = Ms.PopStep.retryPlain ∧
      Ms.applyStep (Ms.Queue.new (T := Nat)) Ms.PopStep.retryPlain = Ms.Queue.new) ∧
    (Ms.popIter c5WitnessHeap 0 5 0 3).2 = [] := by
  refine ⟨?_, ?_, ?_⟩
  · exact (claim_C5_pop_reads_next_and_failed_cas_is_noop (Ms.Queue.new (T := Nat))
      c5WitnessHeap 0 5 0 0).1 (some 7) 1 0 (by decide)
  · exact (claim_C5_pop_reads_next_and_failed_cas_is_noop (Ms.Queue.new (T := Nat))
      c5WitnessHeap 0 5 0 3).2.1 rfl (by decide) (by decide) (by decide)
  · exact (claim_C5_pop_reads_next_and_failed_cas_is_noop (Ms.Queue.new (T := Nat))
      c5WitnessHeap 0 5 0 3).2.2

/-- Claim C7: immediately after construction, `pop` returns empty on both
queue variants and `is_empty` returns true on both (the FAA variant's
`is_empty` is modelled from the spec, since `src/faa.rs` defines none). -/
theorem claim_C7_fresh_queues_are_empty (T : Type) :
    (Ms.pop (Ms.Queue.new (T := T))).1 = some none ∧
    Ms.is_empty (Ms.Queue.new (T := T)) = some true ∧
    (Faa.pop (Faa.Queue.new (T := T))).res = some none ∧
    Faa.is_empty (Faa.Queue.new (T := T)) = some true :=
  ⟨rfl, rfl, rfl, rfl⟩

theorem specRun_split {T : Type} :
    ∀ (ops : List (QOp T)) (vs0 : List T),
      ∃ k, (ops.foldl specStep (vs0, [])).1 = (vs0 ++ pushedVals ops).drop k ∧
        ((ops.foldl specStep (vs0, [])).2).filterMap id = (vs0 ++ pushedVals ops).take k := by
  intro ops
  induction ops with
  | nil =>
    intro vs0
    refine ⟨0, ?_, rfl⟩
    simp [pushedVals]
  | cons op rest ih =>
    intro vs0
    cases op with
    | push v =>
      simp only [List.foldl_cons, specStep]
      obtain ⟨k, h1, h2⟩ := ih (vs0 ++ [v])
      refine ⟨k, ?_, ?_⟩
      · rw [h1]
        simp [pushedVals, List.append_assoc]
      · rw [h2]
        simp [pushedVals, List.append_assoc]
    | pop =>
      cases vs0 with
      | nil =>
        simp only [List.foldl_cons, specStep, List.nil_append]
        obtain ⟨k, h1, h2⟩ := ih []
        have hacc := specStep_acc rest ([] : List T) [none]
        refine ⟨k, ?_, ?_⟩
        · rw [hacc.1]
          simpa [pushedVals] using h1
        · rw [hacc.2]
          simpa [pushedVals] using h2
      | cons v r =>
        simp only [List.foldl_cons, specStep, List.nil_append]
        obtain ⟨k, h1, h2⟩ := ih r
        have hacc := specStep_acc rest r [some v]
        refine ⟨k + 1, ?_, ?_⟩
        · rw [hacc.1]
          simpa [pushedVals] using h1
        · rw [hacc.2]
          simp only [List.filterMap_append]
          rw [h2]
          simp [pushedVals]

theorem Faa.cleanup_iff_filled {T : Type} (n : Faa.Node T) (hs : Faa.slotsOk n)
    (j : Nat) (hj : j < Faa.NODE_SIZE) :
    (j ∈ List.range' n.pop_idx (min n.push_idx Faa.NODE_SIZE - n.pop_idx)) ↔
      (n.elements j).state = Faa.WRITER := by
  obtain ⟨hst, -, -⟩ := hs j hj
  rw [hst, List.mem_range'_1]
  by_cases hw : j < min n.push_idx Faa.NODE_SIZE
  · by_cases hr : j < n.pop_idx
    · rw [if_pos hw, if_pos hr]
      constructor
      · intro h
        omega
      · intro h
        exact absurd h (by decide)
    · rw [if_pos hw, if_neg hr]
      constructor
      · intro _
        rfl
      · intro _
        omega
  · by_cases hr : j < n.pop_idx
    · rw [if_neg hw, if_pos hr]
      constructor
      · intro h
        omega
      · intro h
        exact absurd h (by decide)
    · rw [if_neg hw, if_neg hr]
      constructor
      · intro h
        omega
      · intro h
        exact absurd h (by decide)

theorem Faa.runEvs_spec {T : Type} :
    ∀ (ops : List (QOp T)) (q : Faa.Queue T) (hp t : Nat), Faa.InvAt q hp t →
      (Faa.runEvs ops q).Nodup ∧
      (∀ e ∈ Faa.runEvs ops q,
        (∀ s i, e = Faa.Ev.pushRes s i → s < q.heap.length → Faa.pushIdxAt q s ≤ i) ∧
        (∀ s i, e = Faa.Ev.popRes s i → s < q.heap.length → Faa.popIdxAt q s ≤ i)) := by
  intro ops
  induction ops with
  | nil =>
    intro q hp t hInv
    refine ⟨List.nodup_nil, ?_⟩
    intro e he
    exact absurd he (List.not_mem_nil e)
  | cons op rest ih =>
    intro q hp t hInv
    cases op with
    | push v =>
      obtain ⟨t', hInv', -, -, -, hlenmono, hpushmono, hpopeq, hevs, hnodup⟩ :=
        Faa.push_preserves q hp t v hInv
      obtain ⟨hnd, hprop⟩ := ih (Faa.push q v).queue hp t' hInv'
      show (((Faa.push q v).evs ++ Faa.runEvs rest (Faa.push q v).queue).Nodup ∧ _)
      rw [List.nodup_append]
      refine ⟨⟨hnodup, hnd, ?_⟩, ?_⟩
      · intro e he1 he2
        obtain ⟨s, i, rfl, hslt, -, hlt⟩ := hevs e he1
        have hge := (hprop _ he2).1 s i rfl (Nat.lt_of_lt_of_le hslt hlenmono)
        omega
      · intro e he
        simp only [Faa.runEvs, List.mem_append] at he
        rcases he with he1 | he2
        · obtain ⟨s0, i0, he0, hs0, hge0, -⟩ := hevs e he1
          constructor
          · intro s i heq hslt
            rw [he0] at heq
            injection heq with a b
            subst a
            subst b
            exact hge0
          · intro s i heq hslt
            rw [he0] at heq
            exact Faa.Ev.noConfusion heq
        · constructor
          · intro s i heq hslt
            have hs' := Nat.lt_of_lt_of_le hslt hlenmono
            have h1 := (hprop e he2).1 s i heq hs'
            have h2 := hpushmono s hslt
            omega
          · intro s i heq hslt
            have hs' := Nat.lt_of_lt_of_le hslt hlenmono
            have h1 := (hprop e he2).2 s i heq hs'
            rw [hpopeq s hslt] at h1
            exact h1
    | pop =>
      obtain ⟨hp', hInv', hleneq, -, -, hpusheq, hpopmono, hevs, hnodup⟩ :=
        Faa.pop_preserves q hp t hInv
      obtain ⟨hnd, hprop⟩ := ih (Faa.pop q).queue hp' t hInv'
      show (((Faa.pop q).evs ++ Faa.runEvs rest (Faa.pop q).queue).Nodup ∧ _)
      rw [List.nodup_append]
      refine ⟨⟨hnodup, hnd, ?_⟩, ?_⟩
      · intro e he1 he2
        obtain ⟨s, i, rfl, hslt, -, hlt⟩ := hevs e he1
        have hge := (hprop _ he2).2 s i rfl (by omega)
        omega
      · intro e he
        simp only [Faa.runEvs, List.mem_append] at he
        rcases he with he1 | he2
        · obtain ⟨s0, i0, he0, hs0, hge0, -⟩ := hevs e he1
          constructor
          · intro s i heq hslt
            rw [he0] at heq
            exact Faa.Ev.noConfusion heq
          · intro s i heq hslt
            rw [he0] at heq
            injection heq with a b
            subst a
            subst b
            exact hge0
        · constructor
          · intro s i heq hslt
            have h1 := (hprop e he2).1 s i heq (by omega)
            rw [hpusheq s hslt] at h1
            exact h1
          · intro s i heq hslt
            have h1 := (hprop e he2).2 s i heq (by omega)
            have h2 := hpopmono s hslt
            omega

/-- Claim C10: over every run of the FAA queue, the slot-index
reservations handed out by the push-cursor `fetch_add` are pairwise
distinct, and likewise for the pop-cursor `fetch_add`; in particular each
in-range slot index of a segment goes to at most one push call (one
writer) and at most one pop call (one reader). -/
theorem claim_C10_reservation_uniqueness {T : Type} (ops : List (QOp T)) :
    (Faa.runEvs ops Faa.Queue.new).Nodup ∧
    ((Faa.runEvs ops Faa.Queue.new).filter Faa.inRangePush).Nodup ∧
    ((Faa.runEvs ops Faa.Queue.new).filter Faa.inRangePop).Nodup := by
  have h := (Faa.runEvs_spec ops Faa.Queue.new 0 0 Faa.InvAt_new).1
  exact ⟨h, h.filter _, h.filter _⟩

/-- Claim C9: in every state reachable by a sequence of operations on
either variant, head and tail are non-null and reference a live node of
the arena, so the unwraps on head/tail loads never observe null. -/
theorem claim_C9_head_tail_non_null {T : Type} (ops : List (QOp T)) :
    (∃ h, (Ms.runOps ops Ms.Queue.new).1.head = some h ∧
      h < (Ms.runOps ops Ms.Queue.new).1.heap.length) ∧
    (∃ t, (Ms.runOps ops Ms.Queue.new).1.tail = some t ∧
      t < (Ms.runOps ops Ms.Queue.new).1.heap.length) ∧
    (∃ h, (Faa.runOps ops Faa.Queue.new).1.head = some h ∧
      h < (Faa.runOps ops Faa.Queue.new).1.heap.length) ∧
    (∃ t, (Faa.runOps ops Faa.Queue.new).1.tail = some t ∧
      t < (Faa.runOps ops Faa.Queue.new).1.heap.length) := by
  obtain ⟨-, hmInv, -⟩ := Ms.runOps_spec_ms ops Ms.Queue.new [] Ms.Inv_new
  obtain ⟨h, as, hhd, hlt, hchain, htl, -⟩ := hmInv
  obtain ⟨hp2, t2, hInv2, -, -⟩ :=
    Faa.runOps_spec ops Faa.Queue.new 0 0 [] Faa.InvAt_new Faa.liveChunks_new
  refine ⟨⟨h, hhd, hlt⟩, ⟨Ms.lastAddr h as, htl, ?_⟩,
    ⟨hp2, hInv2.head_eq, hInv2.h_lt⟩, ⟨t2, hInv2.tail_eq, hInv2.t_lt⟩⟩
  exact Ms.lastAddr_lt _ as h hchain hlt

theorem Faa.runOps_cursor_mono {T : Type} :
    ∀ (ops : List (QOp T)) (q : Faa.Queue T) (hp t : Nat), Faa.InvAt q hp t →
      q.heap.length ≤ (Faa.runOps ops q).1.heap.length ∧
      ∀ s, s < q.heap.length →
        Faa.pushIdxAt q s ≤ Faa.pushIdxAt (Faa.runOps ops q).1 s ∧
        Faa.popIdxAt q s ≤ Faa.popIdxAt (Faa.runOps ops q).1 s := by
  intro ops
  induction ops with
  | nil =>
    intro q hp t hInv
    exact ⟨Nat.le_refl _, fun s _ => ⟨Nat.le_refl _, Nat.le_refl _⟩⟩
  | cons op rest ih =>
    intro q hp t hInv
    cases op with
    | push v =>
      obtain ⟨t', hInv', -, -, -, hlenmono, hpushmono, hpopeq, -, -⟩ :=
        Faa.push_preserves q hp t v hInv
      obtain ⟨hlen2, hmono2⟩ := ih (Faa.push q v).queue hp t' hInv'
      refine ⟨Nat.le_trans hlenmono hlen2, ?_⟩
      intro s hs
      have hs' : s < (Faa.push q v).queue.heap.length := Nat.lt_of_lt_of_le hs hlenmono
      obtain ⟨hm1, hm2⟩ := hmono2 s hs'
      rw [hpopeq s hs] at hm2
      exact ⟨Nat.le_trans (hpushmono s hs) hm1, hm2⟩
    | pop =>
      obtain ⟨hp', hInv', hleneq, -, -, hpusheq, hpopmono, -, -⟩ :=
        Faa.pop_preserves q hp t hInv
      obtain ⟨hlen2, hmono2⟩ := ih (Faa.pop q).queue hp' t hInv'
      refine ⟨?_, ?_⟩
      · show q.heap.length ≤ (Faa.runOps rest (Faa.pop q).queue).1.heap.length
        omega
      · intro s hs
        have hs' : s < (Faa.pop q).queue.heap.length := by omega
        obtain ⟨hm1, hm2⟩ := hmono2 s hs'
        rw [hpusheq s hs] at hm1
        exact ⟨hm1, Nat.le_trans (hpopmono s hs) hm2⟩

theorem Faa.slot_formula_mono (k p k' p' j : Nat) (hk : k ≤ k') (hps : p ≤ p') :
    (((if j < min k Faa.NODE_SIZE then Faa.WRITER else 0) |||
          (if j < p then Faa.READER else 0)) |||
        ((if j < min k' Faa.NODE_SIZE then Faa.WRITER else 0) |||
          (if j < p' then Faa.READER else 0))) =
      ((if j < min k' Faa.NODE_SIZE then Faa.WRITER else 0) |||
        (if j < p' then Faa.READER else 0)) ∧
    Faa.rank ((if j < min k Faa.NODE_SIZE then Faa.WRITER else 0) |||
        (if j < p then Faa.READER else 0)) ≤
      Faa.rank ((if j < min k' Faa.NODE_SIZE then Faa.WRITER else 0) |||
        (if j < p' then Faa.READER else 0)) ∧
    (((if j < min k Faa.NODE_SIZE then Faa.WRITER else 0) |||
          (if j < p then Faa.READER else 0)) ≠ Faa.UNINIT →
      ((if j < min k' Faa.NODE_SIZE then Faa.WRITER else 0) |||
          (if j < p' then Faa.READER else 0)) ≠ Faa.UNINIT) := by
  have hm : min k Faa.NODE_SIZE ≤ min k' Faa.NODE_SIZE := by omega
  by_cases h1 : j < min k Faa.NODE_SIZE <;> by_cases h2 : j < p <;>
    by_cases h3 : j < min k' Faa.NODE_SIZE <;> by_cases h4 : j < p' <;>
    first
    | (exfalso; omega)
    | (simp only [h1, h2, h3, h4, if_true, if_false]; decide)

/-- Claim C8: slot claim states only move forward.  For every state
reachable by a sequence of operations from a fresh FAA queue and every
further sequence of operations, each slot's state evolves by bit-setting
only (the old state's bits survive in the new state), its position along
`Empty → Filled → Taken` never decreases, and a slot never returns to
`Empty` once left. -/
theorem claim_C8_slot_state_monotonic {T : Type} (ops ops2 : List (QOp T)) (s j : Nat)
    (hs : s < (Faa.runOps ops Faa.Queue.new).1.heap.length) (hj : j < Faa.NODE_SIZE) :
    (Faa.slotStateAt (Faa.runOps ops Faa.Queue.new).1 s j |||
        Faa.slotStateAt (Faa.runOps ops2 (Faa.runOps ops Faa.Queue.new).1).1 s j) =
      Faa.slotStateAt (Faa.runOps ops2 (Faa.runOps ops Faa.Queue.new).1).1 s j ∧
    Faa.rank (Faa.slotStateAt (Faa.runOps ops Faa.Queue.new).1 s j) ≤
      Faa.rank (Faa.slotStateAt (Faa.runOps ops2 (Faa.runOps ops Faa.Queue.new).1).1 s j) ∧
    (Faa.slotStateAt (Faa.runOps ops Faa.Queue.new).1 s j ≠ Faa.UNINIT →
      Faa.slotStateAt (Faa.runOps ops2 (Faa.runOps ops Faa.Queue.new).1).1 s j ≠
        Faa.UNINIT) := by
  obtain ⟨hp1, t1, hInv1, -, -⟩ :=
    Faa.runOps_spec ops Faa.Queue.new 0 0 [] Faa.InvAt_new Faa.liveChunks_new
  obtain ⟨hp2, t2, hInv2, -, -⟩ :=
    Faa.runOps_spec ops2 (Faa.runOps ops Faa.Queue.new).1 hp1 t1
      (Faa.liveChunks (Faa.runOps ops Faa.Queue.new).1 hp1) hInv1 rfl
  obtain ⟨hlen, hmono⟩ :=
    Faa.runOps_cursor_mono ops2 (Faa.runOps ops Faa.Queue.new).1 hp1 t1 hInv1
  obtain ⟨hk, hpm⟩ := hmono s hs
  have hs2 : s < (Faa.runOps ops2 (Faa.runOps ops Faa.Queue.new).1).1.heap.length :=
    Nat.lt_of_lt_of_le hs hlen
  have hst1 := (hInv1.slots_ok s hs j hj).1
  have hst2 := (hInv2.slots_ok s hs2 j hj).1
  simp only [Faa.slotStateAt]
  rw [hst1, hst2]
  exact Faa.slot_formula_mono _ _ _ _ j hk hpm

/-- Witness for C8 at concrete inputs: one push, then observing the slot
through one further pop. -/
theorem claim_C8_witness :
    (0 < (Faa.runOps [QOp.push (3 : Nat)] Faa.Queue.new).1.heap.length ∧
        0 < Faa.NODE_SIZE) ∧
    ((Faa.slotStateAt (Faa.runOps [QOp.push (3 : Nat)] Faa.Queue.new).1 0 0 |||
        Faa.slotStateAt
          (Faa.runOps [QOp.pop] (Faa.runOps [QOp.push (3 : Nat)] Faa.Queue.new).1).1 0 0) =
      Faa.slotStateAt
        (Faa.runOps [QOp.pop] (Faa.runOps [QOp.push (3 : Nat)] Faa.Queue.new).1).1 0 0 ∧
    Faa.rank (Faa.slotStateAt (Faa.runOps [QOp.push (3 : Nat)] Faa.Queue.new).1 0 0) ≤
      Faa.rank (Faa.slotStateAt
        (Faa.runOps [QOp.pop] (Faa.runOps [QOp.push (3 : Nat)] Faa.Queue.new).1).1 0 0) ∧
    (Faa.slotStateAt (Faa.runOps [QOp.push (3 : Nat)] Faa.Queue.new).1 0 0 ≠ Faa.UNINIT →
      Faa.slotStateAt
          (Faa.runOps [QOp.pop] (Faa.runOps [QOp.push (3 : Nat)] Faa.Queue.new).1).1 0 0 ≠
        Faa.UNINIT)) :=
  ⟨⟨by decide, by decide⟩,
    claim_C8_slot_state_monotonic [QOp.push 3] [QOp.pop] 0 0 (by decide) (by decide)⟩

theorem c3Seg0_elements {T : Type} (vs : List T) (m r : Nat) (nx : Option Nat) (j : Nat) :
    (c3Seg0 vs m r nx).elements j =
      if j < min m Faa.NODE_SIZE then
        { inner := vs[j]?
          state := if j < r then Faa.WRITER ||| Faa.READER else Faa.WRITER }
      else Faa.Slot.new := rfl

theorem c3QueuePush_geth {T : Type} (vs : List T) (m : Nat) :
    Faa.geth (c3QueuePush vs m).heap 0 = c3Seg0 vs m 0 none := rfl

theorem c3Seg0_push_idx {T : Type} (vs : List T) (m r : Nat) (nx : Option Nat) :
    (c3Seg0 vs m r nx).push_idx = m := rfl

theorem c3Seg0_pop_idx {T : Type} (vs : List T) (m r : Nat) (nx : Option Nat) :
    (c3Seg0 vs m r nx).pop_idx = r := rfl

theorem c3Seg0_next {T : Type} (vs : List T) (m r : Nat) (nx : Option Nat) :
    (c3Seg0 vs m r nx).next = nx := rfl

theorem c3_push_phase {T : Type} (vs : List T) :
    ∀ m, m ≤ Faa.NODE_SIZE → m ≤ vs.length →
      Faa.pushAll Faa.Queue.new (vs.take m) = c3QueuePush vs m := by
  intro m
  induction m with
  | zero =>
    intro _ _
    show Faa.Queue.new = c3QueuePush vs 0
    have hn : Faa.Node.new = c3Seg0 vs 0 0 (none : Option Nat) := by
      unfold c3Seg0 Faa.Node.new
      congr 1
    unfold Faa.Queue.new c3QueuePush
    rw [hn]
  | succ m ihm =>
    intro hm hmv
    have hmN : m < Faa.NODE_SIZE := hm
    have hmlt : m < vs.length := hmv
    have htake : vs.take (m + 1) = vs.take m ++ [vs[m]] := by
      rw [List.take_succ, List.getElem?_eq_getElem hmlt]
      rfl
    rw [htake]
    have happ : Faa.pushAll Faa.Queue.new (vs.take m ++ [vs[m]]) =
        (Faa.push (Faa.pushAll Faa.Queue.new (vs.take m)) vs[m]).queue := by
      unfold Faa.pushAll
      rw [List.foldl_append]
      rfl
    rw [happ, ihm (by omega) (by omega)]
    have hfuel : Faa.push (c3QueuePush vs m) vs[m] =
        Faa.pushLoop (3 + 1) (c3QueuePush vs m) vs[m] := rfl
    rw [hfuel]
    rw [Faa.pushLoop_append_eq 3 (c3QueuePush vs m) vs[m] 0 rfl
      (by simp [c3QueuePush])
      (by rw [c3QueuePush_geth, c3Seg0_push_idx]; exact hmN)
      (by
        rw [c3QueuePush_geth, c3Seg0_push_idx, c3Seg0_elements]
        rw [if_neg (by omega)]
        show Faa.UNINIT ≠ Faa.READER
        decide)]
    simp only [c3QueuePush_geth, c3Seg0_push_idx, c3Seg0_pop_idx, c3Seg0_next]
    simp only [c3QueuePush, List.set_cons_zero]
    simp only [Faa.Queue.mk.injEq, List.cons.injEq, and_true, true_and]
    show _ = c3Seg0 vs (m + 1) 0 none
    have helem : (fun j => if j = m then
          ({ inner := some vs[m],
             state := ((c3Seg0 vs m 0 none).elements m).state ||| Faa.WRITER } : Faa.Slot T)
        else (c3Seg0 vs m 0 none).elements j) = (c3Seg0 vs (m + 1) 0 none).elements := by
      funext j
      rw [c3Seg0_elements vs (m + 1) 0 none j]
      by_cases hj : j = m
      · subst hj
        rw [if_pos rfl, if_pos (show j < min (j + 1) Faa.NODE_SIZE by omega)]
        rw [c3Seg0_elements, if_neg (show ¬ (j < min j Faa.NODE_SIZE) by omega)]
        rw [if_neg (show ¬ (j < 0) by omega), List.getElem?_eq_getElem hmlt]
        show ({ inner := some vs[j], state := Faa.UNINIT ||| Faa.WRITER } : Faa.Slot T) = _
        have hor : Faa.UNINIT ||| Faa.WRITER = Faa.WRITER := by decide
        rw [hor]
      · rw [if_neg hj, c3Seg0_elements]
        by_cases hjm : j < m
        · rw [if_pos (show j < min m Faa.NODE_SIZE by omega),
            if_pos (show j < min (m + 1) Faa.NODE_SIZE by omega)]
        · rw [if_neg (show ¬ (j < min m Faa.NODE_SIZE) by omega),
            if_neg (show ¬ (j < min (m + 1) Faa.NODE_SIZE) by omega)]
    have hnode := congrArg
      (fun f : Nat → Faa.Slot T =>
        ({ push_idx := m + 1, pop_idx := 0, next := none, elements := f } : Faa.Node T))
      helem
    exact hnode.trans rfl

theorem c3QueueExt_geth0 {T : Type} (vs : List T) (w : T) (r : Nat) :
    Faa.geth (c3QueueExt vs w r).heap 0 =
      c3Seg0 vs (Faa.NODE_SIZE + 1) r (some 1) := rfl

theorem c3QueueExt_geth1 {T : Type} (vs : List T) (w : T) (r : Nat) :
    Faa.geth (c3QueueExt vs w r).heap 1 = Faa.Node.with_tentative w := rfl

theorem c3_extend {T : Type} (vs : List T) (hlen : vs.length = Faa.NODE_SIZE + 1) :
    Faa.pushAll Faa.Queue.new vs = c3QueueExt vs (vs[Faa.NODE_SIZE]) 0 := by
  have hNlt : Faa.NODE_SIZE < vs.length := by omega
  have h0 : vs.take (Faa.NODE_SIZE + 1) = vs := by
    rw [← hlen, List.take_length]
  have h1 : vs.take (Faa.NODE_SIZE + 1) =
      vs.take Faa.NODE_SIZE ++ [vs[Faa.NODE_SIZE]] := by
    rw [List.take_succ, List.getElem?_eq_getElem hNlt]
    rfl
  have hsplit : vs = vs.take Faa.NODE_SIZE ++ [vs[Faa.NODE_SIZE]] := by
    rw [← h1, h0]
  nth_rewrite 1 [hsplit]
  have happ : Faa.pushAll Faa.Queue.new
        (vs.take Faa.NODE_SIZE ++ [vs[Faa.NODE_SIZE]]) =
      (Faa.push (Faa.pushAll Faa.Queue.new (vs.take Faa.NODE_SIZE))
        vs[Faa.NODE_SIZE]).queue := by
    unfold Faa.pushAll
    rw [List.foldl_append]
    rfl
  rw [happ, c3_push_phase vs Faa.NODE_SIZE (Nat.le_refl _) (by omega)]
  have hfuel : Faa.push (c3QueuePush vs Faa.NODE_SIZE) vs[Faa.NODE_SIZE] =
      Faa.pushLoop (3 + 1) (c3QueuePush vs Faa.NODE_SIZE) vs[Faa.NODE_SIZE] := rfl
  rw [hfuel]
  rw [Faa.pushLoop_extend_eq 3 (c3QueuePush vs Faa.NODE_SIZE) vs[Faa.NODE_SIZE] 0 rfl
    (by simp [c3QueuePush])
    (by rw [c3QueuePush_geth, c3Seg0_push_idx])
    (by rw [c3QueuePush_geth, c3Seg0_next])]
  simp only [c3QueuePush_geth, c3Seg0_push_idx, c3Seg0_pop_idx, c3Seg0_next]
  simp only [c3QueuePush, List.set_cons_zero, List.length_cons, List.length_nil,
    Nat.zero_add, List.cons_append, List.nil_append]
  show ({ heap := _, head := some 0, tail := some 0, retired := [] } : Faa.Queue T) = _
  simp only [c3QueueExt, Faa.Queue.mk.injEq, List.cons.injEq, and_true, true_and]
  have helem : (c3Seg0 vs Faa.NODE_SIZE 0 none).elements =
      (c3Seg0 vs (Faa.NODE_SIZE + 1) 0 (some 1)).elements := by
    funext j
    rw [c3Seg0_elements, c3Seg0_elements]
    by_cases hj : j < Faa.NODE_SIZE
    · rw [if_pos (show j < min Faa.NODE_SIZE Faa.NODE_SIZE by omega),
        if_pos (show j < min (Faa.NODE_SIZE + 1) Faa.NODE_SIZE by omega)]
    · rw [if_neg (show ¬ (j < min Faa.NODE_SIZE Faa.NODE_SIZE) by omega),
        if_neg (show ¬ (j < min (Faa.NODE_SIZE + 1) Faa.NODE_SIZE) by omega)]
  have hnode := congrArg
    (fun f : Nat → Faa.Slot T =>
      ({ push_idx := Faa.NODE_SIZE + 1, pop_idx := 0, next := some 1,
         elements := f } : Faa.Node T))
    helem
  exact hnode.trans rfl

theorem c3_pop_step {T : Type} (vs : List T) (w : T) (r : Nat) (hr : r < Faa.NODE_SIZE)
    (hrv : r < vs.length) :
    Faa.pop (c3QueueExt vs w r) =
      { res := some (some (some vs[r]))
        queue := c3QueueExt vs w (r + 1)
        evs := [Faa.Ev.popRes 0 r] } := by
  have hfuel : Faa.pop (c3QueueExt vs w r) =
      Faa.popLoop (4 + 1) (c3QueueExt vs w r) := rfl
  rw [hfuel]
  rw [Faa.popLoop_take_eq 4 (c3QueueExt vs w r) 0 1 rfl
    (by simp [c3QueueExt])
    (by rw [c3QueueExt_geth0, c3Seg0_next])
    (by rw [c3QueueExt_geth0, c3Seg0_pop_idx]; exact hr)
    (by
      rw [c3QueueExt_geth0, c3Seg0_pop_idx, c3Seg0_elements,
        if_pos (show r < min (Faa.NODE_SIZE + 1) Faa.NODE_SIZE by omega)]
      show (if r < r then Faa.WRITER ||| Faa.READER else Faa.WRITER) ≠ Faa.UNINIT
      rw [if_neg (show ¬ (r < r) by omega)]
      decide)]
  simp only [c3QueueExt_geth0, c3Seg0_push_idx, c3Seg0_pop_idx, c3Seg0_next]
  simp only [c3QueueExt, List.set_cons_zero]
  simp only [Faa.PopOut.mk.injEq, Faa.Queue.mk.injEq, List.cons.injEq, and_true, true_and]
  refine ⟨?_, ?_⟩
  · rw [c3Seg0_elements,
      if_pos (show r < min (Faa.NODE_SIZE + 1) Faa.NODE_SIZE by omega)]
    show some (some (vs[r]?)) = some (some (some vs[r]))
    rw [List.getElem?_eq_getElem hrv]
  · have helem : (fun j => if j = r then
          ({ inner := ((c3Seg0 vs (Faa.NODE_SIZE + 1) r (some 1)).elements r).inner
             state := ((c3Seg0 vs (Faa.NODE_SIZE + 1) r (some 1)).elements r).state |||
               Faa.READER } : Faa.Slot T)
        else (c3Seg0 vs (Faa.NODE_SIZE + 1) r (some 1)).elements j) =
        (c3Seg0 vs (Faa.NODE_SIZE + 1) (r + 1) (some 1)).elements := by
      funext j
      rw [c3Seg0_elements vs (Faa.NODE_SIZE + 1) (r + 1) (some 1) j]
      by_cases hj : j = r
      · subst hj
        rw [if_pos rfl,
          if_pos (show j < min (Faa.NODE_SIZE + 1) Faa.NODE_SIZE by omega)]
        rw [c3Seg0_elements,
          if_pos (show j < min (Faa.NODE_SIZE + 1) Faa.NODE_SIZE by omega)]
        show ({ inner := vs[j]?
                state := (if j < j then Faa.WRITER ||| Faa.READER else Faa.WRITER) |||
                  Faa.READER } : Faa.Slot T) = _
        rw [if_neg (show ¬ (j < j) by omega), if_pos (show j < j + 1 by omega)]
      · rw [if_neg hj, c3Seg0_elements]
        by_cases hjc : j < min (Faa.NODE_SIZE + 1) Faa.NODE_SIZE
        · rw [if_pos hjc, if_pos hjc]
          by_cases hjr : j < r
          · rw [if_pos hjr, if_pos (show j < r + 1 by omega)]
          · rw [if_neg hjr, if_neg (show ¬ (j < r + 1) by omega)]
        · rw [if_neg hjc, if_neg hjc]
    have hnode := congrArg
      (fun f : Nat → Faa.Slot T =>
        ({ push_idx := Faa.NODE_SIZE + 1, pop_idx := r + 1, next := some 1,
           elements := f } : Faa.Node T))
      helem
    exact hnode.trans rfl

theorem c3_pop_last {T : Type} (vs : List T) (w : T) :
    Faa.pop (c3QueueExt vs w Faa.NODE_SIZE) =
      { res := some none
        queue :=
          { heap := [c3Seg0 vs (Faa.NODE_SIZE + 1) (Faa.NODE_SIZE + 1) (some 1),
              Faa.Node.with_tentative w]
            head := some 1
            tail := some 0
            retired := [0] }
        evs := [Faa.Ev.popRes 0 Faa.NODE_SIZE] } := by
  have hfuel : Faa.pop (c3QueueExt vs w Faa.NODE_SIZE) =
      Faa.popLoop (4 + 1) (c3QueueExt vs w Faa.NODE_SIZE) := rfl
  rw [hfuel]
  rw [Faa.popLoop_unlink_eq 4 (c3QueueExt vs w Faa.NODE_SIZE) 0 1 rfl
    (by simp [c3QueueExt])
    (by rw [c3QueueExt_geth0, c3Seg0_next])
    (by rw [c3QueueExt_geth0, c3Seg0_pop_idx])]
  simp only [c3QueueExt_geth0, c3Seg0_push_idx, c3Seg0_pop_idx, c3Seg0_next]
  simp only [c3QueueExt, List.set_cons_zero, List.nil_append]
  have hfl : ∀ qq : Faa.Queue T, Faa.popLoop 4 qq = Faa.popLoop (3 + 1) qq :=
    fun _ => rfl
  rw [hfl]
  rw [Faa.popLoop_empty_eq 3 _ 1 rfl
    (by
      show (Faa.Node.with_tentative w).pop_idx ≤ (Faa.Node.with_tentative w).push_idx
      show (0 : Nat) ≤ 1
      omega)
    (by show (Faa.Node.with_tentative w).next = none; rfl)]
  simp only [Faa.PopOut.mk.injEq, Faa.Queue.mk.injEq, List.cons.injEq, and_true, true_and]
  have helem : (c3Seg0 vs (Faa.NODE_SIZE + 1) Faa.NODE_SIZE (some 1)).elements =
      (c3Seg0 vs (Faa.NODE_SIZE + 1) (Faa.NODE_SIZE + 1) (some 1)).elements := by
    funext j
    rw [c3Seg0_elements, c3Seg0_elements]
    by_cases hjc : j < min (Faa.NODE_SIZE + 1) Faa.NODE_SIZE
    · rw [if_pos hjc, if_pos hjc, if_pos (show j < Faa.NODE_SIZE by omega),
        if_pos (show j < Faa.NODE_SIZE + 1 by omega)]
    · rw [if_neg hjc, if_neg hjc]
  have hnode := congrArg
    (fun f : Nat → Faa.Slot T =>
      ({ push_idx := Faa.NODE_SIZE + 1, pop_idx := Faa.NODE_SIZE + 1, next := some 1,
         elements := f } : Faa.Node T))
    helem
  exact hnode.trans rfl

theorem c3_pop_phase {T : Type} (vs : List T) (w : T) :
    ∀ (c r : Nat), r + c = Faa.NODE_SIZE → Faa.NODE_SIZE < vs.length →
      (Faa.popN (c + 1) (c3QueueExt vs w r)).1 =
        ((vs.drop r).take c).map (fun v => some (some (some v))) ++ [some none] ∧
      (Faa.popN (c + 1) (c3QueueExt vs w r)).2 =
        { heap := [c3Seg0 vs (Faa.NODE_SIZE + 1) (Faa.NODE_SIZE + 1) (some 1),
            Faa.Node.with_tentative w]
          head := some 1
          tail := some 0
          retired := [0] } := by
  intro c
  induction c with
  | zero =>
    intro r hr hv
    have hrN : r = Faa.NODE_SIZE := by omega
    subst hrN
    refine ⟨?_, ?_⟩
    · show (Faa.pop (c3QueueExt vs w Faa.NODE_SIZE)).res ::
          (Faa.popN 0 (Faa.pop (c3QueueExt vs w Faa.NODE_SIZE)).queue).1 = _
      rw [c3_pop_last]
      simp [Faa.popN]
    · show (Faa.pop (c3QueueExt vs w Faa.NODE_SIZE)).queue = _
      rw [c3_pop_last]
  | succ c ihc =>
    intro r hr hv
    have hrN : r < Faa.NODE_SIZE := by omega
    have hrv : r < vs.length := by omega
    refine ⟨?_, ?_⟩
    · show (Faa.pop (c3QueueExt vs w r)).res ::
          (Faa.popN (c + 1) (Faa.pop (c3QueueExt vs w r)).queue).1 = _
      rw [c3_pop_step vs w r hrN hrv]
      show some (some (some vs[r])) :: (Faa.popN (c + 1) (c3QueueExt vs w (r + 1))).1 = _
      rw [(ihc (r + 1) (by omega) hv).1]
      rw [List.drop_eq_getElem_cons hrv, List.take_succ_cons, List.map_cons]
      rfl
    · show (Faa.popN (c + 1) (Faa.pop (c3QueueExt vs w r)).queue).2 = _
      rw [c3_pop_step vs w r hrN hrv]
      show (Faa.popN (c + 1) (c3QueueExt vs w (r + 1))).2 = _
      exact (ihc (r + 1) (by omega) hv).2

/-- Claim C3 is a code bug.  Pushing exactly NODE_SIZE+1 elements into a
fresh FAA queue does force exactly one segment extension (a second
segment is linked and pre-filled with the overflowing element), but the
NODE_SIZE+1 values are NOT all retrievable: because the emptiness check
of `Queue::pop` (`src/faa.rs` line 95) tests `push_idx >= pop_idx`
instead of the spec's `push_cursor ≤ pop_cursor`, the pop that unlinks
the exhausted first segment then sees the fresh second segment (push
cursor 1, pop cursor 0, null next) as empty, so only the first NODE_SIZE
values come back and the final pop reports empty, losing the overflowing
element. -/
theorem claim_C3_code_bug_boundary_value_lost {T : Type} (vs : List T)
    (hlen : vs.length = Faa.NODE_SIZE + 1) :
    (Faa.pushAll Faa.Queue.new vs).heap.length = 2 ∧
    (Faa.geth (Faa.pushAll Faa.Queue.new vs).heap 0).next = some 1 ∧
    ((Faa.geth (Faa.pushAll Faa.Queue.new vs).heap 1).elements 0).inner =
      some vs[Faa.NODE_SIZE] ∧
    (Faa.popN (Faa.NODE_SIZE + 1) (Faa.pushAll Faa.Queue.new vs)).1 =
      (vs.take Faa.NODE_SIZE).map (fun v => some (some (some v))) ++ [some none] := by
  have hNlt : Faa.NODE_SIZE < vs.length := by omega
  rw [c3_extend vs hlen]
  refine ⟨rfl, ?_, ?_, ?_⟩
  · rw [c3QueueExt_geth0, c3Seg0_next]
  · rw [c3QueueExt_geth1]
    rfl
  · have hpp := (c3_pop_phase vs (vs[Faa.NODE_SIZE]) Faa.NODE_SIZE 0 (by omega) hNlt).1
    rw [hpp]
    rw [List.drop_zero]

set_option maxRecDepth 20000 in
/-- Witness for C3 at a concrete input: the list `0, 1, ..., NODE_SIZE`
of length NODE_SIZE+1. -/
theorem claim_C3_witness :
    (List.range (Faa.NODE_SIZE + 1)).length = Faa.NODE_SIZE + 1 ∧
    ((Faa.pushAll Faa.Queue.new (List.range (Faa.NODE_SIZE + 1))).heap.length = 2 ∧
    (Faa.geth (Faa.pushAll Faa.Queue.new (List.range (Faa.NODE_SIZE + 1))).heap 0).next =
      some 1 ∧
    ((Faa.geth (Faa.pushAll Faa.Queue.new
        (List.range (Faa.NODE_SIZE + 1))).heap 1).elements 0).inner =
      some (List.range (Faa.NODE_SIZE + 1))[Faa.NODE_SIZE] ∧
    (Faa.popN (Faa.NODE_SIZE + 1)
        (Faa.pushAll Faa.Queue.new (List.range (Faa.NODE_SIZE + 1)))).1 =
      ((List.range (Faa.NODE_SIZE + 1)).take Faa.NODE_SIZE).map
          (fun v => some (some (some v))) ++ [some none]) :=
  ⟨List.length_range _,
    claim_C3_code_bug_boundary_value_lost (List.range (Faa.NODE_SIZE + 1))
      (List.length_range _)⟩

/-- Claim C2 is a code bug, on the FAA side, in two ways.  (1) The
in-range push path (`src/faa.rs` lines 73-81) writes the element into the
slot with a bitwise `write_tentative(&elem)` and then returns without
`mem::forget` (the only `mem::forget` in the file is on the
`push_new_node` Ok path, line 142), so the call drops the caller's local
`elem` while the slot keeps a live copy: a pushed-and-not-popped element
is destructed by the push itself and again by the queue drop — twice, not
once.  (2) After the segment-boundary run (NODE_SIZE+1 pushes, then
NODE_SIZE+1 pops), the segment retired by the unlinking pop has pop
cursor NODE_SIZE+1, so its eventual `Node::drop` evaluates
`elements[NODE_SIZE+1 .. NODE_SIZE]` — inverted slice bounds — and
panics instead of performing cleanup. -/
theorem claim_C2_code_bug_drop_safety {T : Type} (vs : List T) (v : T)
    (hlen : vs.length = Faa.NODE_SIZE + 1) :
    ((Faa.push Faa.Queue.new v).done = true ∧
      (Faa.push Faa.Queue.new v).destructs = [some v] ∧
      Faa.queueDropDestructs (Faa.push Faa.Queue.new v).queue = [some v]) ∧
    ((Faa.popN (Faa.NODE_SIZE + 1) (Faa.pushAll Faa.Queue.new vs)).2.retired = [0] ∧
      Faa.Node.dropPanics
        (Faa.geth (Faa.popN (Faa.NODE_SIZE + 1)
          (Faa.pushAll Faa.Queue.new vs)).2.heap 0)) := by
  have hrec := Faa.pushLoop_append_eq 3 Faa.Queue.new v 0 rfl
    (by show (0 : Nat) < 1; omega)
    (by show (0 : Nat) < Faa.NODE_SIZE; decide)
    (by show Faa.UNINIT ≠ Faa.READER; decide)
  obtain ⟨t', hInv', -, hchunks, -, -, -, -, -, -⟩ :=
    Faa.push_preserves Faa.Queue.new 0 0 v Faa.InvAt_new
  refine ⟨⟨?_, ?_, ?_⟩, ?_⟩
  · show (Faa.pushLoop (3 + 1) Faa.Queue.new v).done = true
    rw [hrec]
  · show (Faa.pushLoop (3 + 1) Faa.Queue.new v).destructs = [some v]
    rw [hrec]
  · rw [Faa.queueDrop_of_inv _ 0 t' hInv', hchunks, Faa.liveChunks_new]
    rfl
  · rw [c3_extend vs hlen]
    have h2 := (c3_pop_phase vs (vs[Faa.NODE_SIZE]) Faa.NODE_SIZE 0 (by omega)
      (by omega)).2
    rw [h2]
    refine ⟨rfl, ?_⟩
    show min (Faa.NODE_SIZE + 1) Faa.NODE_SIZE < Faa.NODE_SIZE + 1
    omega

/-- Witness for C2 at concrete inputs: the value 7 for the double-destruct
half, the list `0, 1, ..., NODE_SIZE` for the panicking retired segment. -/
theorem claim_C2_witness :
    (List.range (Faa.NODE_SIZE + 1)).length = Faa.NODE_SIZE + 1 ∧
    (((Faa.push Faa.Queue.new (7 : Nat)).done = true ∧
      (Faa.push Faa.Queue.new (7 : Nat)).destructs = [some 7] ∧
      Faa.queueDropDestructs (Faa.push Faa.Queue.new (7 : Nat)).queue = [some 7]) ∧
    ((Faa.popN (Faa.NODE_SIZE + 1)
        (Faa.pushAll Faa.Queue.new (List.range (Faa.NODE_SIZE + 1)))).2.retired = [0] ∧
      Faa.Node.dropPanics
        (Faa.geth (Faa.popN (Faa.NODE_SIZE + 1)
          (Faa.pushAll Faa.Queue.new (List.range (Faa.NODE_SIZE + 1)))).2.heap 0))) :=
  ⟨List.length_range _,
    claim_C2_code_bug_drop_safety (List.range (Faa.NODE_SIZE + 1)) 7
      (List.length_range _)⟩
